import Mathlib

set_option maxRecDepth 100000

/-!
Verification of the Sudoku engine and the move-history controller of this
repository (files `src/sudoku-pwa/script.js` and `src/unnamed/part_000`; the
two files contain near-identical engine code, and line references below are
to `part_000` with the `script.js` counterpart in parentheses).

The shallow embedding translates the JavaScript directly:

* a 9x9 grid of digits 0-9 (0 = empty) becomes `Grid := Fin 9 → Fin 9 → Fin 10`;
* in-place mutation with undo-on-backtrack becomes pure state passing
  (`setCell` produces the updated grid; the JS "restore the cell to 0 after
  the recursive call" is the identity in the pure reading);
* the recursion of `generateSolution` / the solver's `solve` closure over the
  cursor `(row, col)` (with `col === 9` wrapping to the next row) is encoded
  by the remaining-cell count `n` = `81 - (9*row + col)`, recursed on
  structurally; `rowAt n` / `colAt n` recover the JS cursor;
* `Math.random()`-driven choices become explicit parameters
  (the digit order tried at each search node, the random clue-count draw,
  the position order, the hint-candidate index).
-/

/-- A cell value: a digit `0`-`9`, `0` meaning empty. -/
abbrev Cell := Fin 10

/-- A 9x9 grid of digits, `0` meaning empty (`createEmptyGrid` produces the
all-zero such grid). -/
abbrev Grid := Fin 9 → Fin 9 → Cell

/-- The all-zero grid, mirroring `createEmptyGrid` (part_000 line 62,
script.js line 75). -/
def createEmptyGrid : Grid := fun _ _ => 0

/-- Pure counterpart of the assignment `grid[row][col] = v`. -/
def setCell (g : Grid) (r c : Fin 9) (v : Cell) : Grid :=
  fun r' c' => if r' = r then if c' = c then v else g r' c' else g r' c'

/-- The digits `1`-`9` in ascending order: the loop
`for (let num = 1; num <= 9; num++)` of the solver and of `countSolutions`. -/
def digitsList : List Cell := [1, 2, 3, 4, 5, 6, 7, 8, 9]

/-- Row scan of `isValidPlacement` (part_000 lines 71-73): `true` iff `num`
does not occur in row `r`. -/
def rowOkB (g : Grid) (r : Fin 9) (v : Cell) : Bool :=
  (List.finRange 9).all fun c => decide (g r c ≠ v)

/-- Column scan of `isValidPlacement` (part_000 lines 76-78). -/
def colOkB (g : Grid) (c : Fin 9) (v : Cell) : Bool :=
  (List.finRange 9).all fun r => decide (g r c ≠ v)

/-- Row index of the `i`-th cell of the 3x3 box containing row `r`:
`boxRow = Math.floor(row / 3) * 3` plus offset. -/
def boxIdx (r : Fin 9) (i : Fin 3) : Fin 9 :=
  ⟨r.val / 3 * 3 + i.val, by omega⟩

/-- Box scan of `isValidPlacement` (part_000 lines 81-87). -/
def boxOkB (g : Grid) (r c : Fin 9) (v : Cell) : Bool :=
  (List.finRange 3).all fun i => (List.finRange 3).all fun j =>
    decide (g (boxIdx r i) (boxIdx c j) ≠ v)

/-- `isValidPlacement(grid, row, col, num)` (part_000 lines 69-90, script.js
`SudokuGenerator.isValid` lines 94-115): `num` occurs nowhere in the row,
column, or 3x3 box of `(row, col)`. -/
def isValidPlacement (g : Grid) (r c : Fin 9) (v : Cell) : Bool :=
  rowOkB g r v && colOkB g c v && boxOkB g r c v

/-- Two positions lie in a common row, column, or 3x3 box. -/
def SameUnit (p q : (Fin 9) × (Fin 9)) : Prop :=
  p.1 = q.1 ∨ p.2 = q.2 ∨ (p.1.val / 3 = q.1.val / 3 ∧ p.2.val / 3 = q.2.val / 3)

instance (p q : (Fin 9) × (Fin 9)) : Decidable (SameUnit p q) := by
  unfold SameUnit; infer_instance

/-- A grid is a consistent (partial) assignment: no nonzero digit occurs twice
within a row, a column, or a 3x3 box. -/
def ValidGrid (g : Grid) : Prop :=
  ∀ p q : (Fin 9) × (Fin 9), p ≠ q → SameUnit p q → g p.1 p.2 ≠ 0 →
    g p.1 p.2 ≠ g q.1 q.2

instance (g : Grid) : Decidable (ValidGrid g) := by
  unfold ValidGrid; infer_instance

/-- Every cell is filled. -/
def FullGrid (g : Grid) : Prop := ∀ r c, g r c ≠ 0

instance (g : Grid) : Decidable (FullGrid g) := by
  unfold FullGrid; infer_instance

/-- `s` preserves every filled cell of `g`. -/
def Extends (g s : Grid) : Prop := ∀ r c, g r c ≠ 0 → s r c = g r c

instance (g s : Grid) : Decidable (Extends g s) := by
  unfold Extends; infer_instance

/-- `s` is a completion of `g` under Sudoku rules: a fully filled, consistent
grid preserving the filled cells of `g`. -/
def IsCompletion (g s : Grid) : Prop := FullGrid s ∧ Extends g s ∧ ValidGrid s

instance (g s : Grid) : Decidable (IsCompletion g s) := by
  unfold IsCompletion; infer_instance

/-- The (finite) set of completions of `g`.  (Irreducible so that
unification never tries to unfold `Finset.univ` over the huge type
`Grid`; the `mem_completionsFinset` lemma is the interface.) -/
@[irreducible] def completionsFinset (g : Grid) : Finset Grid :=
  Finset.univ.filter fun s => IsCompletion g s

/-- The number of distinct completions of `g` under Sudoku rules. -/
def numCompletions (g : Grid) : Nat := (completionsFinset g).card

/-- The canonical solved grid used as a concrete fixture by the spec's
testable properties (spec section 8). -/
def canonical : Grid :=
  ![![5, 3, 4, 6, 7, 8, 9, 1, 2],
    ![6, 7, 2, 1, 9, 5, 3, 4, 8],
    ![1, 9, 8, 3, 4, 2, 5, 6, 7],
    ![8, 5, 9, 7, 6, 1, 4, 2, 3],
    ![4, 2, 6, 8, 5, 3, 7, 9, 1],
    ![7, 1, 3, 9, 2, 4, 8, 5, 6],
    ![9, 6, 1, 5, 3, 7, 2, 8, 4],
    ![2, 8, 7, 4, 1, 9, 6, 3, 5],
    ![3, 4, 5, 2, 8, 6, 1, 7, 9]]

/-- A full but inconsistent grid: the canonical grid with the `5` at `(0,0)`
replaced by `3`, so `3` occurs twice in row `0` (and twice in column `0`). -/
def gBad : Grid := setCell canonical 0 0 3

example : ValidGrid canonical := by decide
example : FullGrid gBad := by decide
example : ¬ ValidGrid gBad := by decide

/-!
## The backtracking search engine

`generateSolution` (part_000 lines 106-137, script.js lines 120-147) and the
solver's inner `solve` closure (part_000 lines 243-268, script.js lines
240-256) are the same recursion over the cursor `(row, col)`: normalize
`col === 9` to `(row+1, 0)`; at `row === 9` succeed; skip filled cells;
otherwise try each digit from an order list, place it, recurse, and undo the
placement on failure.  The cursor is encoded by the number `n` of cells from
the cursor (inclusive) to the end of the grid: `n = 81 - (9*row + col)`, so
the initial call has `n = 81` and the success base case is `n = 0`.

The only difference between the two callers is the digit order: a fresh
`shuffle([1..9])` per node for `generateSolution`, the fixed ascending
`1..9` for the solver.  The order is therefore a parameter `ord n g`,
allowed to depend on the search node.  This loses no generality for the
randomized caller: within one run of `generateSolution`, the grid contents
at a node determine the digits chosen on the path to it, so each pair
`(n, g)` is visited at most once and any sequence of random draws is
realized by some `ord`.
-/

/-- The JS row cursor for remaining-cell count `n+1`
(the cell index is `80 - n`). -/
def rowAt (n : Nat) : Fin 9 := ⟨(80 - n) / 9, by omega⟩

/-- The JS column cursor for remaining-cell count `n+1`. -/
def colAt (n : Nat) : Fin 9 := ⟨(80 - n) % 9, by omega⟩

/-- The shared backtracking recursion of `generateSolution` and the solver
(see the section comment).  The digit loop
`for (const num of numbers) if (isValid) place/recurse/undo` is
`List.findSome?`: the first digit whose recursive call succeeds yields the
result, and the pure reading makes the undo implicit. -/
def genAux (ord : Nat → Grid → List Cell) : Nat → Grid → Option Grid
  | 0, g => some g
  | n + 1, g =>
    if g (rowAt n) (colAt n) ≠ 0 then genAux ord n g
    else
      (ord (n + 1) g).findSome? fun v =>
        if isValidPlacement g (rowAt n) (colAt n) v then
          genAux ord n (setCell g (rowAt n) (colAt n) v)
        else none

/-- `generateSolution(grid)` (part_000 lines 106-137): `some s` is the JS
returning `true` with the grid mutated to `s`; `none` is returning `false`
(with the grid restored).  `ord` supplies the per-node `shuffle([1..9])`. -/
def generateSolution (ord : Nat → Grid → List Cell) (g : Grid) : Option Grid :=
  genAux ord 81 g

/-- `solveSudoku(grid)` (part_000 lines 240-271, script.js
`SudokuSolver.solve` lines 237-259): run the backtracking recursion with the
ascending digit order `1..9` on a copy of the grid; `null` becomes `none`. -/
def solveSudoku (g : Grid) : Option Grid :=
  genAux (fun _ _ => digitsList) 81 g

/-- The row-major scan for the first empty cell in `countSolutions`
(part_000 lines 144-151). -/
def firstEmpty (g : Grid) : Option ((Fin 9) × (Fin 9)) :=
  (List.finRange 9 ×ˢ List.finRange 9).find? fun p => g p.1 p.2 = 0

/-- Number of empty cells of a grid (the termination measure of
`countSolutions`). -/
def emptyCount (g : Grid) : Nat :=
  ((Finset.univ : Finset ((Fin 9) × (Fin 9))).filter fun p => g p.1 p.2 = 0).card

/-- `countSolutions(grid, count)` (part_000 lines 142-178, script.js lines
152-181): find the first empty cell (none left means one more solution was
found); otherwise try digits `1..9` ascending, recurse on each valid
placement, and return as soon as the counter exceeds `1`.

The early return `if (count.value > 1) return` is the `acc > 1` guard of the
fold: once the accumulator exceeds `1` every remaining digit is skipped,
which is exactly the JS short-circuit.  The structural `fuel` argument
bounds the recursion depth; one placement fills one empty cell, so any
`fuel > emptyCount g` (in particular the `82` used by `countSolutions`,
since a grid has at most `81` empty cells) gives the behavior of the
unbounded JS recursion. -/
def countAux : Nat → Grid → Nat → Nat
  | 0, _, cnt => cnt
  | fuel + 1, g, cnt =>
    match firstEmpty g with
    | none => cnt + 1
    | some (r, c) =>
      digitsList.foldl
        (fun acc v =>
          if acc > 1 then acc
          else if isValidPlacement g r c v then countAux fuel (setCell g r c v) acc
          else acc)
        cnt

/-- `countSolutions(grid)` with the default counter `{value: 0}`. -/
def countSolutions (g : Grid) : Nat := countAux 82 g 0

/-- The clue-removal loop of `createPuzzle` (part_000 lines 199-215,
script.js lines 201-216): for each position, stop once `cellsToRemove`
removals have succeeded; otherwise tentatively zero the cell and keep the
removal only if `countSolutions` on a fresh copy reports exactly one
solution, restoring the digit otherwise. -/
def removeLoop (cellsToRemove : Nat) : List ((Fin 9) × (Fin 9)) → Grid → Nat → Grid
  | [], p, _ => p
  | pos :: rest, p, removed =>
    if removed ≥ cellsToRemove then p
    else
      let tentative := setCell p pos.1 pos.2 0
      if countSolutions tentative = 1 then removeLoop cellsToRemove rest tentative (removed + 1)
      else removeLoop cellsToRemove rest p removed

/-- `createPuzzle(solution, difficulty)` (part_000 lines 184-218, script.js
lines 186-219).  The random draw `targetClues = min + floor(random*(max-min+1))`
and the shuffled position list are passed in as `targetClues` and
`positions` (in `part_000` the positions are Fisher-Yates shuffled; in
`script.js` the shuffle's return value is discarded, leaving row-major
order — both are instances of an arbitrary `positions` list). -/
def createPuzzle (solution : Grid) (targetClues : Nat)
    (positions : List ((Fin 9) × (Fin 9))) : Grid :=
  removeLoop (81 - targetClues) positions solution 0

/-- A difficulty tier: an inclusive clue-count window (`DIFFICULTY_CLUES`,
part_000 lines 32-36). -/
structure Tier where
  tmin : Nat
  tmax : Nat

/-- `targetClues = min + Math.floor(Math.random() * (max - min + 1))`
(part_000 line 187): the random draw is modeled by an arbitrary natural
`r` reduced into `[0, max - min]`. -/
def targetOf (t : Tier) (r : Nat) : Nat :=
  t.tmin + r % (t.tmax - t.tmin + 1)

/-- Number of clues (nonzero cells) of a grid. -/
def clueCount (g : Grid) : Nat :=
  ((Finset.univ : Finset ((Fin 9) × (Fin 9))).filter fun p => g p.1 p.2 ≠ 0).card

example : countSolutions gBad = 1 := by rfl
example : solveSudoku gBad = some gBad := by rfl
example : solveSudoku canonical = some canonical := by rfl

/-! ## Basic lemmas about cells, placements and consistency -/

theorem setCell_same (g : Grid) (r c : Fin 9) (v : Cell) : setCell g r c v r c = v := by
  simp [setCell]

theorem setCell_other (g : Grid) (r c : Fin 9) (v : Cell) {r' c' : Fin 9}
    (h : ¬(r' = r ∧ c' = c)) : setCell g r c v r' c' = g r' c' := by
  unfold setCell
  by_cases h1 : r' = r
  · by_cases h2 : c' = c
    · exact absurd ⟨h1, h2⟩ h
    · simp [h1, h2]
  · simp [h1]

theorem setCell_self (g : Grid) (r c : Fin 9) : setCell g r c (g r c) = g := by
  funext r' c'
  by_cases h : r' = r ∧ c' = c
  · obtain ⟨h1, h2⟩ := h; subst h1; subst h2; exact setCell_same _ _ _ _
  · exact setCell_other _ _ _ _ h

theorem sameUnit_symm {p q : (Fin 9) × (Fin 9)} (h : SameUnit p q) : SameUnit q p := by
  unfold SameUnit at *
  rcases h with h | h | h
  · exact Or.inl h.symm
  · exact Or.inr (Or.inl h.symm)
  · exact Or.inr (Or.inr ⟨h.1.symm, h.2.symm⟩)

/-- The 27 cells scanned by `isValidPlacement` are exactly the cells sharing
a row, column, or box with `(r, c)`: the check succeeds iff `v` occurs on
none of them. -/
theorem isValidPlacement_iff {g : Grid} {r c : Fin 9} {v : Cell} :
    isValidPlacement g r c v = true ↔
      ∀ q : (Fin 9) × (Fin 9), SameUnit (r, c) q → g q.1 q.2 ≠ v := by
  unfold isValidPlacement rowOkB colOkB boxOkB
  simp only [Bool.and_eq_true, List.all_eq_true, List.mem_finRange, decide_eq_true_eq,
    true_implies]
  constructor
  · rintro ⟨⟨hrow, hcol⟩, hbox⟩ ⟨qr, qc⟩ hq
    rcases hq with hq | hq | hq
    · simp only at hq; subst hq; exact hrow qc
    · simp only at hq; subst hq; exact hcol qr
    · obtain ⟨h1, h2⟩ := hq
      simp only at h1 h2
      have hi : qr = boxIdx r ⟨qr.val - r.val / 3 * 3, by omega⟩ := by
        apply Fin.ext; simp only [boxIdx]; omega
      have hj : qc = boxIdx c ⟨qc.val - c.val / 3 * 3, by omega⟩ := by
        apply Fin.ext; simp only [boxIdx]; omega
      rw [hi, hj]; exact hbox _ _
  · intro h
    refine ⟨⟨fun c' => h (r, c') (Or.inl rfl), fun r' => h (r', c) (Or.inr (Or.inl rfl))⟩,
      fun i j => h (boxIdx r i, boxIdx c j) (Or.inr (Or.inr ⟨?_, ?_⟩))⟩
    · simp only [boxIdx]; omega
    · simp only [boxIdx]; omega

/-- A placement passing `isValidPlacement` on a consistent grid keeps the
grid consistent. -/
theorem validGrid_setCell {g : Grid} {r c : Fin 9} {v : Cell} (hg : ValidGrid g)
    (hok : isValidPlacement g r c v = true) : ValidGrid (setCell g r c v) := by
  intro p q hpq hunit hp0
  rw [isValidPlacement_iff] at hok
  by_cases hp : p = (r, c)
  · subst hp
    have hqv : setCell g r c v q.1 q.2 = g q.1 q.2 := by
      apply setCell_other
      intro ⟨h1, h2⟩
      exact hpq (Prod.ext h1 h2).symm
    rw [hqv, setCell_same]
    exact fun hvq => hok q hunit hvq.symm
  · have hpv : setCell g r c v p.1 p.2 = g p.1 p.2 := by
      apply setCell_other
      intro ⟨h1, h2⟩
      exact hp (Prod.ext h1 h2)
    rw [hpv] at hp0 ⊢
    by_cases hq : q = (r, c)
    · subst hq
      rw [setCell_same]
      have := hok p (sameUnit_symm hunit)
      exact this
    · have hqv : setCell g r c v q.1 q.2 = g q.1 q.2 := by
        apply setCell_other
        intro ⟨h1, h2⟩
        exact hq (Prod.ext h1 h2)
      rw [hqv]
      exact hg p q hpq hunit hp0

/-- Zeroing a cell keeps the grid consistent. -/
theorem validGrid_erase {g : Grid} (hg : ValidGrid g) (r c : Fin 9) :
    ValidGrid (setCell g r c 0) := by
  intro p q hpq hunit hp0
  by_cases hp : p = (r, c)
  · subst hp; rw [setCell_same] at hp0; exact absurd rfl hp0
  · have hpv : setCell g r c 0 p.1 p.2 = g p.1 p.2 :=
      setCell_other _ _ _ _ (fun ⟨h1, h2⟩ => hp (Prod.ext h1 h2))
    rw [hpv] at hp0 ⊢
    by_cases hq : q = (r, c)
    · subst hq; rw [setCell_same]; exact hp0
    · have hqv : setCell g r c 0 q.1 q.2 = g q.1 q.2 :=
        setCell_other _ _ _ _ (fun ⟨h1, h2⟩ => hq (Prod.ext h1 h2))
      rw [hqv]; exact hg p q hpq hunit hp0

/-- In a completion `s` of `g`, the digit `s` holds at an empty cell of `g`
passes the `isValidPlacement` scan on `g`. -/
theorem placement_of_completion {g s : Grid} {r c : Fin 9} (hs : ValidGrid s)
    (hext : Extends g s) (h0 : g r c = 0) (hne : s r c ≠ 0) :
    isValidPlacement g r c (s r c) = true := by
  rw [isValidPlacement_iff]
  intro q hunit hq
  have hq0 : g q.1 q.2 ≠ 0 := by rw [hq]; exact hne
  have hsq : s q.1 q.2 = g q.1 q.2 := hext q.1 q.2 hq0
  have hqne : q ≠ (r, c) := by
    intro h; subst h; exact hq0 h0
  exact hs (r, c) q (fun h => hqne h.symm) hunit hne (by rw [hsq, hq])

theorem extends_refl (g : Grid) : Extends g g := fun _ _ _ => rfl

/-- Filling an empty cell extends the grid. -/
theorem extends_setCell {g : Grid} {r c : Fin 9} {v : Cell} (h0 : g r c = 0) :
    Extends g (setCell g r c v) := by
  intro r' c' hne
  apply setCell_other
  intro ⟨h1, h2⟩
  subst h1; subst h2
  exact hne h0

/-- Anything extending the grid with an empty cell filled extends the grid. -/
theorem extends_of_setCell_extends {g s : Grid} {r c : Fin 9} {v : Cell}
    (h0 : g r c = 0) (h : Extends (setCell g r c v) s) : Extends g s := by
  intro r' c' hne
  have hne' : ¬(r' = r ∧ c' = c) := by
    intro ⟨h1, h2⟩; subst h1; subst h2; exact hne h0
  have := h r' c' (by rw [setCell_other _ _ _ _ hne']; exact hne)
  rw [setCell_other _ _ _ _ hne'] at this
  exact this

/-- A grid extending `g` and holding `v` at `(r, c)` extends
`setCell g r c v`. -/
theorem setCell_extends {g s : Grid} {r c : Fin 9} {v : Cell}
    (hv : s r c = v) (h : Extends g s) : Extends (setCell g r c v) s := by
  intro r' c' hne
  by_cases hrc : r' = r ∧ c' = c
  · obtain ⟨h1, h2⟩ := hrc; subst h1; subst h2
    rw [setCell_same]; exact hv
  · rw [setCell_other _ _ _ _ hrc] at hne ⊢
    exact h r' c' hne

/-! ## Correctness of the shared backtracking recursion -/

/-- The cursor invariant of the `generateSolution` / solver recursion: with
`n` cells left to visit, every cell the cursor has passed (row-major index
below `81 - n`) is filled. -/
def CursorFilled (n : Nat) (g : Grid) : Prop :=
  ∀ r c : Fin 9, r.val * 9 + c.val < 81 - n → g r c ≠ 0

theorem cursorFilled_81 (g : Grid) : CursorFilled 81 g := by
  intro r c h; omega

theorem fullGrid_of_cursorFilled {g : Grid} (h : CursorFilled 0 g) : FullGrid g := by
  intro r c
  exact h r c (by omega)

/-- The cell the cursor visits at remaining count `n + 1` has row-major
index `80 - n` (for `n ≤ 80`), and is the unique such cell. -/
theorem cursor_cell_eq {n : Nat} (_hn : n ≤ 80) {r c : Fin 9}
    (h : r.val * 9 + c.val = 80 - n) : r = rowAt n ∧ c = colAt n := by
  have hc : c.val < 9 := c.isLt
  have hr : r.val < 9 := r.isLt
  constructor
  · apply Fin.ext; simp only [rowAt]; omega
  · apply Fin.ext; simp only [colAt]; omega

theorem cursorFilled_step_skip {n : Nat} {g : Grid} (h : CursorFilled (n + 1) g)
    (hcur : g (rowAt n) (colAt n) ≠ 0) : CursorFilled n g := by
  intro r c hidx
  by_cases hn80 : n ≤ 80
  · rcases Nat.lt_or_ge (r.val * 9 + c.val) (80 - n) with hlt | hge
    · exact h r c (by omega)
    · have heq : r.val * 9 + c.val = 80 - n := by omega
      obtain ⟨h1, h2⟩ := cursor_cell_eq hn80 heq
      rw [h1, h2]; exact hcur
  · exact absurd hidx (by omega)

theorem cursorFilled_step_set {n : Nat} {g : Grid} {v : Cell}
    (h : CursorFilled (n + 1) g) (hv : v ≠ 0) :
    CursorFilled n (setCell g (rowAt n) (colAt n) v) := by
  intro r c hidx
  by_cases hrc : r = rowAt n ∧ c = colAt n
  · obtain ⟨h1, h2⟩ := hrc; subst h1; subst h2
    rw [setCell_same]; exact hv
  · rw [setCell_other _ _ _ _ hrc]
    by_cases hn80 : n ≤ 80
    · rcases Nat.lt_or_ge (r.val * 9 + c.val) (80 - n) with hlt | hge
      · exact h r c (by omega)
      · have heq : r.val * 9 + c.val = 80 - n := by omega
        exact absurd (cursor_cell_eq hn80 heq) hrc
    · exact absurd hidx (by omega)

/-- Soundness of the backtracking recursion: whatever the digit order
supplies (as long as it only supplies digits `1`-`9`), a successful search
yields a fully filled grid extending the start grid, consistent whenever
the start grid was. -/
theorem genAux_sound {ord : Nat → Grid → List Cell}
    (hord : ∀ m g' v, v ∈ ord m g' → v ≠ (0 : Cell)) :
    ∀ n (g s : Grid), CursorFilled n g → genAux ord n g = some s →
      FullGrid s ∧ Extends g s ∧ (ValidGrid g → ValidGrid s) := by
  intro n
  induction n with
  | zero =>
    intro g s hcur hrun
    simp only [genAux, Option.some_inj] at hrun
    subst hrun
    exact ⟨fullGrid_of_cursorFilled hcur, extends_refl g, id⟩
  | succ n ih =>
    intro g s hcur hrun
    simp only [genAux] at hrun
    split at hrun
    · next hne =>
      exact ih g s (cursorFilled_step_skip hcur hne) hrun
    · next hz =>
      have h0 : g (rowAt n) (colAt n) = 0 := by
        by_contra h; exact hz h
      obtain ⟨v, hv_mem, hv_run⟩ := List.exists_of_findSome?_eq_some hrun
      split at hv_run
      · next hok =>
        have hvne := hord _ _ _ hv_mem
        obtain ⟨hfull, hext, hvalid⟩ :=
          ih _ s (cursorFilled_step_set hcur hvne) hv_run
        refine ⟨hfull, extends_of_setCell_extends h0 hext, fun hg => ?_⟩
        exact hvalid (validGrid_setCell hg hok)
      · exact absurd hv_run (by simp)

/-- Completeness of the backtracking recursion: if the digit order supplies
every digit `1`-`9` at every node, a failed search means no completion
exists. -/
theorem genAux_complete {ord : Nat → Grid → List Cell}
    (hord : ∀ m g' (v : Cell), v ≠ 0 → v ∈ ord m g') :
    ∀ n (g : Grid), CursorFilled n g → genAux ord n g = none →
      ∀ s, ¬ IsCompletion g s := by
  intro n
  induction n with
  | zero =>
    intro g hcur hrun
    exact absurd hrun (by simp [genAux])
  | succ n ih =>
    intro g hcur hrun s hs
    obtain ⟨hfull, hext, hvalid⟩ := hs
    simp only [genAux] at hrun
    split at hrun
    · next hne =>
      exact ih g (cursorFilled_step_skip hcur hne) hrun s ⟨hfull, hext, hvalid⟩
    · next hz =>
      have h0 : g (rowAt n) (colAt n) = 0 := by
        by_contra h; exact hz h
      rw [List.findSome?_eq_none_iff] at hrun
      have hsne : s (rowAt n) (colAt n) ≠ 0 := hfull _ _
      have hmem := hord (n + 1) g _ hsne
      have hok := placement_of_completion hvalid hext h0 hsne
      have := hrun _ hmem
      rw [if_pos hok] at this
      refine ih _ (cursorFilled_step_set hcur hsne) this s
        ⟨hfull, setCell_extends rfl hext, hvalid⟩

/-! ## Counting completions -/

theorem mem_completionsFinset {g s : Grid} :
    s ∈ completionsFinset g ↔ IsCompletion g s := by
  simp [completionsFinset]

/-- The only candidate completion of a full grid is the grid itself. -/
theorem eq_of_extends_full {g s : Grid} (hfull : FullGrid g) (hext : Extends g s) :
    s = g := by
  funext r c
  exact hext r c (hfull r c)

theorem numCompletions_full_valid {g : Grid} (hfull : FullGrid g) (hg : ValidGrid g) :
    numCompletions g = 1 := by
  unfold numCompletions
  have : completionsFinset g = {g} := by
    apply Finset.ext
    intro s
    rw [mem_completionsFinset, Finset.mem_singleton]
    constructor
    · rintro ⟨_, hext, _⟩; exact eq_of_extends_full hfull hext
    · rintro rfl; exact ⟨hfull, extends_refl _, hg⟩
  rw [this, Finset.card_singleton]

theorem numCompletions_full_invalid {g : Grid} (hfull : FullGrid g)
    (hg : ¬ ValidGrid g) : numCompletions g = 0 := by
  unfold numCompletions
  rw [Finset.card_eq_zero]
  apply Finset.eq_empty_of_forall_not_mem
  intro s hsmem
  rw [mem_completionsFinset] at hsmem
  obtain ⟨_, hext, hvalid⟩ := hsmem
  rw [eq_of_extends_full hfull hext] at hvalid
  exact hg hvalid

/-- Completions of `g` taking value `v ≠ 0` at an empty cell `(r, c)` of `g`
are exactly the completions of `g` with `v` placed there. -/
theorem completions_setCell_eq {g : Grid} {r c : Fin 9} {v : Cell}
    (h0 : g r c = 0) (hv : v ≠ 0) :
    completionsFinset (setCell g r c v) =
      (completionsFinset g).filter fun s => s r c = v := by
  apply Finset.ext
  intro s
  rw [Finset.mem_filter, mem_completionsFinset, mem_completionsFinset]
  constructor
  · rintro ⟨hfull, hext, hvalid⟩
    have hsv : s r c = v := by
      have := hext r c (by rw [setCell_same]; exact hv)
      rw [setCell_same] at this; exact this
    exact ⟨⟨hfull, extends_of_setCell_extends h0 hext, hvalid⟩, hsv⟩
  · rintro ⟨⟨hfull, hext, hvalid⟩, hsv⟩
    exact ⟨hfull, setCell_extends hsv hext, hvalid⟩

/-- Placing a digit that fails the `isValidPlacement` scan leaves no
completion. -/
theorem numCompletions_invalid_branch {g : Grid} {r c : Fin 9} {v : Cell}
    (h0 : g r c = 0) (hv : v ≠ 0) (hbad : isValidPlacement g r c v = false) :
    numCompletions (setCell g r c v) = 0 := by
  unfold numCompletions
  rw [Finset.card_eq_zero]
  apply Finset.eq_empty_of_forall_not_mem
  intro s hsmem
  rw [completions_setCell_eq h0 hv, Finset.mem_filter, mem_completionsFinset] at hsmem
  obtain ⟨⟨hfull, hext, hvalid⟩, hsv⟩ := hsmem
  have := placement_of_completion hvalid hext h0 (hfull r c)
  rw [hsv] at this
  rw [this] at hbad
  exact Bool.noConfusion hbad

/-- Partition of the completions of a grid with empty cell `(r, c)` by the
digit placed there: the branch counts of the digit loop sum to the total
count. -/
theorem numCompletions_partition {g : Grid} {r c : Fin 9} (h0 : g r c = 0) :
    numCompletions g =
      (digitsList.map fun v =>
        if isValidPlacement g r c v then numCompletions (setCell g r c v) else 0).sum := by
  have hfiber : numCompletions g =
      ∑ v ∈ (Finset.univ : Finset Cell), ((completionsFinset g).filter fun s => s r c = v).card :=
    Finset.card_eq_sum_card_fiberwise fun s _ => Finset.mem_univ (s r c)
  have hzero : ((completionsFinset g).filter fun s => s r c = 0).card = 0 := by
    rw [Finset.card_eq_zero]
    apply Finset.eq_empty_of_forall_not_mem
    intro s hsmem
    rw [Finset.mem_filter, mem_completionsFinset] at hsmem
    exact hsmem.1.1 r c hsmem.2
  have hval : ∀ v : Cell, v ≠ 0 →
      ((completionsFinset g).filter fun s => s r c = v).card =
        if isValidPlacement g r c v then numCompletions (setCell g r c v) else 0 := by
    intro v hv
    rw [← completions_setCell_eq h0 hv]
    by_cases hok : isValidPlacement g r c v = true
    · rw [if_pos hok]; rfl
    · rw [if_neg hok]
      have hbadf : isValidPlacement g r c v = false := by
        cases h : isValidPlacement g r c v
        · rfl
        · exact absurd h hok
      exact numCompletions_invalid_branch h0 hv hbadf
  have huniv : (Finset.univ : Finset Cell) =
      insert (0 : Cell) digitsList.toFinset := by decide
  have hnodup : digitsList.Nodup := by decide
  have h0notin : (0 : Cell) ∉ digitsList.toFinset := by decide
  rw [hfiber, huniv, Finset.sum_insert h0notin, hzero, Nat.zero_add]
  rw [← List.sum_toFinset _ hnodup]
  apply Finset.sum_congr rfl
  intro v hvmem
  have hv : v ≠ 0 := by
    intro h; subst h; exact h0notin hvmem
  exact hval v hv

/-! ## Correctness of `countSolutions` -/

theorem firstEmpty_none_iff {g : Grid} : firstEmpty g = none ↔ FullGrid g := by
  unfold firstEmpty
  rw [List.find?_eq_none]
  constructor
  · intro h r c
    have := h (r, c) (by rw [List.mem_product]; exact ⟨List.mem_finRange r, List.mem_finRange c⟩)
    simpa using this
  · intro h p _
    simpa using h p.1 p.2

theorem firstEmpty_some_spec {g : Grid} {p : (Fin 9) × (Fin 9)}
    (h : firstEmpty g = some p) : g p.1 p.2 = 0 := by
  have := List.find?_some h
  simpa using this

theorem emptyCount_pos {g : Grid} {r c : Fin 9} (h : g r c = 0) :
    0 < emptyCount g := by
  apply Finset.card_pos.mpr
  exact ⟨(r, c), by simp [Finset.mem_filter, h]⟩

theorem emptyCount_le_81 (g : Grid) : emptyCount g ≤ 81 := by
  calc emptyCount g ≤ (Finset.univ : Finset ((Fin 9) × (Fin 9))).card :=
        Finset.card_filter_le _ _
    _ = 81 := by simp

theorem emptyCount_setCell {g : Grid} {r c : Fin 9} {v : Cell}
    (h0 : g r c = 0) (hv : v ≠ 0) :
    emptyCount (setCell g r c v) + 1 = emptyCount g := by
  unfold emptyCount
  have hset : ((Finset.univ : Finset ((Fin 9) × (Fin 9))).filter
      fun p => setCell g r c v p.1 p.2 = 0) =
      ((Finset.univ : Finset ((Fin 9) × (Fin 9))).filter
        fun p => g p.1 p.2 = 0).erase (r, c) := by
    apply Finset.ext
    intro p
    rw [Finset.mem_filter, Finset.mem_erase, Finset.mem_filter]
    constructor
    · intro ⟨_, hp⟩
      have hpne : p ≠ (r, c) := by
        intro h; subst h
        rw [setCell_same] at hp
        exact hv hp
      have : setCell g r c v p.1 p.2 = g p.1 p.2 :=
        setCell_other _ _ _ _ (fun ⟨h1, h2⟩ => hpne (Prod.ext h1 h2))
      exact ⟨hpne, Finset.mem_univ p, by rw [← this]; exact hp⟩
    · intro ⟨hpne, _, hp⟩
      have : setCell g r c v p.1 p.2 = g p.1 p.2 :=
        setCell_other _ _ _ _ (fun ⟨h1, h2⟩ => hpne (Prod.ext h1 h2))
      exact ⟨Finset.mem_univ p, by rw [this]; exact hp⟩
  rw [hset, Finset.card_erase_of_mem (by simp [Finset.mem_filter, h0])]
  have : 0 < emptyCount g := emptyCount_pos h0
  unfold emptyCount at this
  omega

theorem digitsList_ne_zero : ∀ v ∈ digitsList, v ≠ (0 : Cell) := by decide

/-- Main correctness of the counting recursion: on a consistent grid, with
enough fuel and a counter at most `1`, `countAux` computes the number of
completions, clamped at `2` by the short-circuit. -/
theorem countAux_correct :
    ∀ (fuel : Nat) (g : Grid) (cnt : Nat), emptyCount g < fuel → ValidGrid g →
      cnt ≤ 1 → countAux fuel g cnt = min (cnt + numCompletions g) 2 := by
  intro fuel
  induction fuel with
  | zero => intro g cnt hfuel _ _; exact absurd hfuel (by omega)
  | succ fuel ih =>
    intro g cnt hfuel hg hcnt
    cases hfe : firstEmpty g with
    | none =>
      have hfull : FullGrid g := firstEmpty_none_iff.mp hfe
      simp only [countAux, hfe]
      rw [numCompletions_full_valid hfull hg]
      omega
    | some p =>
      obtain ⟨r, c⟩ := p
      have h0 : g r c = 0 := firstEmpty_some_spec hfe
      -- The digit loop: `foldl` over a list of nonzero digits computes the
      -- clamped sum of the branch counts.
      have loop : ∀ (vs : List Cell), (∀ v ∈ vs, v ≠ (0 : Cell)) → ∀ acc : Nat, acc ≤ 1 →
          vs.foldl (fun acc v =>
            if acc > 1 then acc
            else if isValidPlacement g r c v then countAux fuel (setCell g r c v) acc
            else acc) acc =
          min (acc + (vs.map fun v =>
            if isValidPlacement g r c v then numCompletions (setCell g r c v) else 0).sum) 2 := by
        intro vs
        induction vs with
        | nil =>
          intro _ acc hacc
          simp only [List.foldl_nil, List.map_nil, List.sum_nil, Nat.add_zero]
          omega
        | cons v rest ihv =>
          intro hne acc hacc
          have hvne : v ≠ (0 : Cell) := hne v (List.mem_cons_self v rest)
          have hrest : ∀ w ∈ rest, w ≠ (0 : Cell) := fun w hw => hne w (List.mem_cons_of_mem v hw)
          simp only [List.foldl_cons, List.map_cons, List.sum_cons]
          rw [if_neg (by omega)]
          by_cases hok : isValidPlacement g r c v = true
          · rw [if_pos hok]
            have hlt : emptyCount (setCell g r c v) < fuel := by
              have := emptyCount_setCell h0 hvne
              omega
            have hrec := ih (setCell g r c v) acc hlt (validGrid_setCell hg hok) hacc
            rw [hrec]
            by_cases hcl : acc + numCompletions (setCell g r c v) ≥ 2
            · -- the counter reached 2: every remaining digit is skipped
              have habort : ∀ (l : List Cell) (a : Nat), a > 1 →
                  l.foldl (fun acc v =>
                    if acc > 1 then acc
                    else if isValidPlacement g r c v then countAux fuel (setCell g r c v) acc
                    else acc) a = a := by
                intro l
                induction l with
                | nil => intro a _; simp
                | cons w ws ihw =>
                  intro a ha
                  simp only [List.foldl_cons]
                  rw [if_pos ha]
                  exact ihw a ha
              have hmin2 : min (acc + numCompletions (setCell g r c v)) 2 = 2 := by omega
              rw [hmin2, habort _ 2 (by omega)]
              rw [if_pos hok]
              omega
            · have hmineq : min (acc + numCompletions (setCell g r c v)) 2 =
                  acc + numCompletions (setCell g r c v) := by omega
              rw [hmineq, if_pos hok]
              rw [ihv hrest _ (by omega)]
              omega
          · rw [if_neg hok, if_neg hok]
            rw [ihv hrest acc hacc]
            omega
      simp only [countAux, hfe]
      rw [loop digitsList digitsList_ne_zero cnt hcnt, ← numCompletions_partition h0]

/-- `countSolutions` on a consistent grid returns the number of completions
clamped at `2`. -/
theorem countSolutions_min {g : Grid} (hg : ValidGrid g) :
    countSolutions g = min (numCompletions g) 2 := by
  unfold countSolutions
  rw [countAux_correct 82 g 0 (by have := emptyCount_le_81 g; omega) hg (by omega)]
  omega

/-! ## Rows, columns and boxes of a full consistent grid -/

theorem mem_digitsList : ∀ v : Cell, v ≠ 0 → v ∈ digitsList := by decide

/-- The nine cells of row `r`. -/
def rowCells (g : Grid) (r : Fin 9) : List Cell :=
  (List.finRange 9).map fun c => g r c

/-- The nine cells of column `c`. -/
def colCells (g : Grid) (c : Fin 9) : List Cell :=
  (List.finRange 9).map fun r => g r c

/-- The nine cells of the 3x3 box containing `(r, c)`. -/
def boxCells (g : Grid) (r c : Fin 9) : List Cell :=
  (List.finRange 3 ×ˢ List.finRange 3).map fun ij => g (boxIdx r ij.1) (boxIdx c ij.2)

/-- A list of nine distinct nonzero digits is a permutation of `1..9`. -/
theorem perm_digits_of_nodup {l : List Cell} (hlen : l.length = 9)
    (hnd : l.Nodup) (hmem : ∀ v ∈ l, v ≠ 0) : l.Perm digitsList := by
  have hsub : l ⊆ digitsList := fun v hv => mem_digitsList v (hmem v hv)
  have hsp := List.subperm_of_subset hnd hsub
  exact hsp.perm_of_length_le (by rw [hlen]; rfl)

theorem rowCells_perm {g : Grid} (hfull : FullGrid g) (hg : ValidGrid g) (r : Fin 9) :
    (rowCells g r).Perm digitsList := by
  apply perm_digits_of_nodup
  · simp [rowCells]
  · apply List.Nodup.map_on _ (List.nodup_finRange 9)
    intro c1 _ c2 _ heq
    by_contra hne
    exact hg (r, c1) (r, c2) (by simp [Prod.ext_iff]; intro h; exact absurd h hne)
      (Or.inl rfl) (hfull r c1) heq
  · intro v hv
    simp only [rowCells, List.mem_map] at hv
    obtain ⟨c, _, rfl⟩ := hv
    exact hfull r c

theorem colCells_perm {g : Grid} (hfull : FullGrid g) (hg : ValidGrid g) (c : Fin 9) :
    (colCells g c).Perm digitsList := by
  apply perm_digits_of_nodup
  · simp [colCells]
  · apply List.Nodup.map_on _ (List.nodup_finRange 9)
    intro r1 _ r2 _ heq
    by_contra hne
    exact hg (r1, c) (r2, c) (by simp [Prod.ext_iff]; intro h; exact absurd h hne)
      (Or.inr (Or.inl rfl)) (hfull r1 c) heq
  · intro v hv
    simp only [colCells, List.mem_map] at hv
    obtain ⟨r, _, rfl⟩ := hv
    exact hfull r c

theorem boxIdx_div (r : Fin 9) (i : Fin 3) : (boxIdx r i).val / 3 = r.val / 3 := by
  simp only [boxIdx]
  omega

theorem boxCells_perm {g : Grid} (hfull : FullGrid g) (hg : ValidGrid g) (r c : Fin 9) :
    (boxCells g r c).Perm digitsList := by
  apply perm_digits_of_nodup
  · simp [boxCells, List.length_product]
  · apply List.Nodup.map_on _ ((List.nodup_finRange 3).product (List.nodup_finRange 3))
    intro ij1 _ ij2 _ heq
    by_contra hne
    have hcellne : (boxIdx r ij1.1, boxIdx c ij1.2) ≠ (boxIdx r ij2.1, boxIdx c ij2.2) := by
      intro h
      rw [Prod.ext_iff] at h
      apply hne
      have h1 : ij1.1 = ij2.1 := by
        have := congrArg Fin.val h.1
        simp only [boxIdx] at this
        exact Fin.ext (by omega)
      have h2 : ij1.2 = ij2.2 := by
        have := congrArg Fin.val h.2
        simp only [boxIdx] at this
        exact Fin.ext (by omega)
      exact Prod.ext h1 h2
    exact hg (boxIdx r ij1.1, boxIdx c ij1.2) (boxIdx r ij2.1, boxIdx c ij2.2) hcellne
      (Or.inr (Or.inr ⟨by rw [boxIdx_div, boxIdx_div], by rw [boxIdx_div, boxIdx_div]⟩))
      (hfull _ _) heq
  · intro v hv
    simp only [boxCells, List.mem_map] at hv
    obtain ⟨ij, _, rfl⟩ := hv
    exact hfull _ _

/-! ## The empty grid -/

theorem validGrid_empty : ValidGrid createEmptyGrid := by
  intro p q _ _ h0
  exact absurd rfl h0

theorem extends_empty (s : Grid) : Extends createEmptyGrid s := by
  intro r c h0
  exact absurd rfl h0

theorem canonical_completes_empty : IsCompletion createEmptyGrid canonical :=
  ⟨by decide, extends_empty canonical, by decide⟩

/-! ## The clue-removal loop -/

/-- Invariant of the removal loop: every kept state is a consistent subgrid
of the solution whose `countSolutions` value is exactly `1`. -/
theorem removeLoop_invariant (S : Grid) :
    ∀ (ps : List ((Fin 9) × (Fin 9))) (R : Nat) (p : Grid) (removed : Nat),
      Extends p S → ValidGrid p → countSolutions p = 1 →
      Extends (removeLoop R ps p removed) S ∧ ValidGrid (removeLoop R ps p removed) ∧
        countSolutions (removeLoop R ps p removed) = 1 := by
  intro ps
  induction ps with
  | nil =>
    intro R p removed hext hval hcnt
    exact ⟨hext, hval, hcnt⟩
  | cons pos rest ih =>
    intro R p removed hext hval hcnt
    simp only [removeLoop]
    split
    · exact ⟨hext, hval, hcnt⟩
    · split
      · next hone =>
        apply ih
        · intro r c hne
          have hne' : ¬(r = pos.1 ∧ c = pos.2) := by
            intro ⟨h1, h2⟩
            subst h1; subst h2
            rw [setCell_same] at hne
            exact hne rfl
          rw [setCell_other _ _ _ _ hne'] at hne ⊢
          exact hext r c hne
        · exact validGrid_erase hval pos.1 pos.2
        · exact hone
      · exact ih R p removed hext hval hcnt

theorem clueCount_full {g : Grid} (hfull : FullGrid g) : clueCount g = 81 := by
  unfold clueCount
  have huniv : ((Finset.univ : Finset ((Fin 9) × (Fin 9))).filter
      fun q => g q.1 q.2 ≠ 0) = Finset.univ := by
    apply Finset.filter_true_of_mem
    intro q _
    exact hfull q.1 q.2
  rw [huniv]
  simp

/-- Zeroing one cell removes at most one clue. -/
theorem clueCount_setCell_zero (p : Grid) (r c : Fin 9) :
    clueCount p ≤ clueCount (setCell p r c 0) + 1 := by
  unfold clueCount
  have hset : ((Finset.univ : Finset ((Fin 9) × (Fin 9))).filter
      fun q => setCell p r c 0 q.1 q.2 ≠ 0) =
      ((Finset.univ : Finset ((Fin 9) × (Fin 9))).filter
        fun q => p q.1 q.2 ≠ 0).erase (r, c) := by
    apply Finset.ext
    intro q
    rw [Finset.mem_filter, Finset.mem_erase, Finset.mem_filter]
    constructor
    · intro ⟨_, hq⟩
      have hqne : q ≠ (r, c) := by
        intro h; subst h
        rw [setCell_same] at hq
        exact hq rfl
      have heq : setCell p r c 0 q.1 q.2 = p q.1 q.2 :=
        setCell_other _ _ _ _ (fun ⟨h1, h2⟩ => hqne (Prod.ext h1 h2))
      exact ⟨hqne, Finset.mem_univ q, by rw [← heq]; exact hq⟩
    · intro ⟨hqne, _, hq⟩
      have heq : setCell p r c 0 q.1 q.2 = p q.1 q.2 :=
        setCell_other _ _ _ _ (fun ⟨h1, h2⟩ => hqne (Prod.ext h1 h2))
      exact ⟨Finset.mem_univ q, by rw [heq]; exact hq⟩
  rw [hset]
  have := Finset.pred_card_le_card_erase
    (s := (Finset.univ : Finset ((Fin 9) × (Fin 9))).filter fun q => p q.1 q.2 ≠ 0)
    (a := (r, c))
  omega

/-- The removal loop performs at most `R` successful removals, so it keeps
at least `clueCount p - (R - removed)` clues. -/
theorem removeLoop_clueCount :
    ∀ (ps : List ((Fin 9) × (Fin 9))) (R : Nat) (p : Grid) (removed : Nat),
      removed ≤ R → 81 ≤ clueCount p + removed →
      81 ≤ clueCount (removeLoop R ps p removed) + R := by
  intro ps
  induction ps with
  | nil =>
    intro R p removed hle hsum
    simp only [removeLoop]
    omega
  | cons pos rest ih =>
    intro R p removed hle hsum
    simp only [removeLoop]
    split
    · omega
    · next hlt =>
      split
      · apply ih
        · omega
        · have := clueCount_setCell_zero p pos.1 pos.2
          omega
      · exact ih R p removed hle hsum

/-! ## Claim theorems for the generator, counter, and solver -/

theorem ascOrd_sound : ∀ (m : Nat) (g' : Grid) (v : Cell),
    v ∈ (fun _ _ => digitsList : Nat → Grid → List Cell) m g' → v ≠ 0 :=
  fun _ _ v hv => digitsList_ne_zero v hv

theorem ascOrd_complete : ∀ (m : Nat) (g' : Grid) (v : Cell),
    v ≠ 0 → v ∈ (fun _ _ => digitsList : Nat → Grid → List Cell) m g' :=
  fun _ _ v hv => mem_digitsList v hv

/-- C1: for every complete consistent solution grid `S`, any target clue
count, and any position order, `createPuzzle` returns a puzzle whose nonzero
cells agree with `S`, on which `countSolutions` returns exactly `1`, and
which therefore has exactly one completion under Sudoku rules. -/
theorem c1_createPuzzle_subset_unique (S : Grid) (target : Nat)
    (ps : List ((Fin 9) × (Fin 9))) (hfull : FullGrid S) (hvalid : ValidGrid S) :
    (∀ r c, createPuzzle S target ps r c ≠ 0 → createPuzzle S target ps r c = S r c) ∧
      countSolutions (createPuzzle S target ps) = 1 ∧
      numCompletions (createPuzzle S target ps) = 1 := by
  unfold createPuzzle
  have hcntS : countSolutions S = 1 := by
    rw [countSolutions_min hvalid, numCompletions_full_valid hfull hvalid]
    rfl
  obtain ⟨hext, hval, hcnt⟩ :=
    removeLoop_invariant S ps (81 - target) S 0 (extends_refl S) hvalid hcntS
  refine ⟨fun r c hne => (hext r c hne).symm, hcnt, ?_⟩
  have hmin := countSolutions_min hval
  rw [hcnt] at hmin
  omega

/-- Witness for C1 at the canonical solved grid. -/
theorem c1_witness :
    FullGrid canonical ∧ ValidGrid canonical ∧
      ((∀ r c, createPuzzle canonical 81 [] r c ≠ 0 →
          createPuzzle canonical 81 [] r c = canonical r c) ∧
        countSolutions (createPuzzle canonical 81 []) = 1 ∧
        numCompletions (createPuzzle canonical 81 []) = 1) :=
  ⟨by decide, by decide,
    c1_createPuzzle_subset_unique canonical 81 [] (by decide) (by decide)⟩

/-- C2 counterexample: the claim quantifies over every grid with entries
`0`-`9`, but on the full inconsistent grid `gBad` the solver returns the
grid itself (it never rechecks pre-filled cells), which is not a consistent
solution — and it does not return `none` even though `gBad` has no
completion. -/
theorem c2_cex :
    solveSudoku gBad = some gBad ∧ ¬ ValidGrid gBad ∧ (∀ s, ¬ IsCompletion gBad s) := by
  refine ⟨by rfl, by decide, fun s hs => ?_⟩
  obtain ⟨_, hext, hvalid⟩ := hs
  rw [eq_of_extends_full (by decide) hext] at hvalid
  exact absurd hvalid (by decide)

/-- C2 (amended to consistent inputs): on every consistent partial grid `g`,
a returned grid is a fully filled consistent extension of `g`, and `none` is
returned exactly when `g` has no completion. -/
theorem c2_solve_correct (g : Grid) (hg : ValidGrid g) :
    (∀ s, solveSudoku g = some s → FullGrid s ∧
      (∀ r c, g r c ≠ 0 → s r c = g r c) ∧ ValidGrid s) ∧
    (solveSudoku g = none ↔ ∀ s, ¬ IsCompletion g s) := by
  constructor
  · intro s hrun
    obtain ⟨hfull, hext, hval⟩ := genAux_sound ascOrd_sound 81 g s (cursorFilled_81 g) hrun
    exact ⟨hfull, hext, hval hg⟩
  · constructor
    · intro hnone s
      exact genAux_complete ascOrd_complete 81 g (cursorFilled_81 g) hnone s
    · intro hno
      cases hrun : solveSudoku g with
      | none => rfl
      | some s =>
        obtain ⟨hfull, hext, hval⟩ :=
          genAux_sound ascOrd_sound 81 g s (cursorFilled_81 g) hrun
        exact absurd ⟨hfull, hext, hval hg⟩ (hno s)

/-- Witness for C2 at the canonical solved grid, on which the solver
succeeds immediately with the grid itself. -/
theorem c2_witness :
    ValidGrid canonical ∧
      (FullGrid canonical ∧ (∀ r c, canonical r c ≠ 0 → canonical r c = canonical r c) ∧
        ValidGrid canonical) :=
  ⟨by decide, (c2_solve_correct canonical (by decide)).1 canonical (by rfl)⟩

/-- C3 counterexample: on the full inconsistent grid `gBad` the counter
reports `1` solution (the base case counts any fully filled grid without
validating it), while `gBad` has no completion, so the result is not
`min n 2`. -/
theorem c3_cex :
    countSolutions gBad = 1 ∧ numCompletions gBad = 0 ∧
      countSolutions gBad ≠ min (numCompletions gBad) 2 := by
  have h1 : countSolutions gBad = 1 := by rfl
  have h2 : numCompletions gBad = 0 :=
    numCompletions_full_invalid (by decide) (by decide)
  refine ⟨h1, h2, ?_⟩
  rw [h1, h2]
  decide

/-- C3 (amended to consistent inputs): on every consistent partial grid,
`countSolutions` returns the number of completions clamped at `2`. -/
theorem c3_countSolutions_min (g : Grid) (hg : ValidGrid g) :
    countSolutions g = min (numCompletions g) 2 :=
  countSolutions_min hg

/-- Witness for C3 at the canonical solved grid. -/
theorem c3_witness :
    ValidGrid canonical ∧ countSolutions canonical = min (numCompletions canonical) 2 :=
  ⟨by decide, c3_countSolutions_min canonical (by decide)⟩

/-- C5 counterexample: `gBad` holds the digit `3` twice in row `0`, yet the
solver returns a grid rather than `none`. -/
theorem c5_cex :
    gBad 0 0 = gBad 0 1 ∧ gBad 0 0 ≠ 0 ∧ solveSudoku gBad ≠ none := by
  refine ⟨by decide, by decide, ?_⟩
  have h : solveSudoku gBad = some gBad := by rfl
  rw [h]
  exact Option.some_ne_none gBad

/-- C5 (amended): on a grid holding the same nonzero digit twice in a row,
the solver never returns a consistent solved grid — any returned grid keeps
both duplicate cells, so it violates the row constraint (and `none` remains
the other possible outcome). -/
theorem c5_duplicate_row (g : Grid) (r c1 c2 : Fin 9) (hne : c1 ≠ c2)
    (h0 : g r c1 ≠ 0) (hdup : g r c1 = g r c2) :
    ∀ s, solveSudoku g = some s → ¬ ValidGrid s := by
  intro s hrun hvalid
  obtain ⟨_, hext, _⟩ := genAux_sound ascOrd_sound 81 g s (cursorFilled_81 g) hrun
  have h1 : s r c1 = g r c1 := hext r c1 h0
  have h2 : s r c2 = g r c2 := hext r c2 (by rw [← hdup]; exact h0)
  have hcells : ((r, c1) : (Fin 9) × (Fin 9)) ≠ (r, c2) := by
    intro h
    rw [Prod.ext_iff] at h
    exact hne h.2
  exact hvalid (r, c1) (r, c2) hcells (Or.inl rfl) (by rw [h1]; exact h0)
    (by rw [h1, h2, hdup])

/-- Witness for C5 on `gBad`, whose row `0` holds `3` twice. -/
theorem c5_witness :
    (0 : Fin 9) ≠ 1 ∧ gBad 0 0 ≠ 0 ∧ gBad 0 0 = gBad 0 1 ∧ ¬ ValidGrid gBad :=
  ⟨by decide, by decide, by decide,
    c5_duplicate_row gBad 0 0 1 (by decide) (by decide) (by decide) gBad (by rfl)⟩

/-- C4: for every digit order that shuffles `[1..9]` at each node (every
outcome of `shuffle` is a permutation), `generateSolution` on the all-zero
grid succeeds, and the resulting grid has every row, column, and 3x3 box a
permutation of the digits `1`-`9`. -/
theorem c4_generateSolution_total (ord : Nat → Grid → List Cell)
    (hord : ∀ (m : Nat) (g : Grid), (ord m g).Perm digitsList) :
    ∃ s, generateSolution ord createEmptyGrid = some s ∧
      (∀ r, (rowCells s r).Perm digitsList) ∧
      (∀ c, (colCells s c).Perm digitsList) ∧
      (∀ r c, (boxCells s r c).Perm digitsList) := by
  have hsound : ∀ (m : Nat) (g : Grid) (v : Cell), v ∈ ord m g → v ≠ 0 := by
    intro m g v hv
    exact digitsList_ne_zero v ((hord m g).mem_iff.mp hv)
  have hcomp : ∀ (m : Nat) (g : Grid) (v : Cell), v ≠ 0 → v ∈ ord m g := by
    intro m g v hv
    exact (hord m g).mem_iff.mpr (mem_digitsList v hv)
  cases hrun : generateSolution ord createEmptyGrid with
  | none =>
    exact absurd canonical_completes_empty
      (genAux_complete hcomp 81 createEmptyGrid (cursorFilled_81 _) hrun canonical)
  | some s =>
    obtain ⟨hfull, _, hval⟩ :=
      genAux_sound hsound 81 createEmptyGrid s (cursorFilled_81 _) hrun
    have hvs := hval validGrid_empty
    exact ⟨s, rfl, fun r => rowCells_perm hfull hvs r, fun c => colCells_perm hfull hvs c,
      fun r c => boxCells_perm hfull hvs r c⟩

/-- Witness for C4 with the identity order (one concrete outcome of the
shuffles). -/
theorem c4_witness :
    (∀ (m : Nat) (g : Grid),
        ((fun _ _ => digitsList : Nat → Grid → List Cell) m g).Perm digitsList) ∧
      ∃ s, generateSolution (fun _ _ => digitsList) createEmptyGrid = some s ∧
        (∀ r, (rowCells s r).Perm digitsList) ∧
        (∀ c, (colCells s c).Perm digitsList) ∧
        (∀ r c, (boxCells s r c).Perm digitsList) :=
  ⟨fun _ _ => List.Perm.refl _,
    c4_generateSolution_total (fun _ _ => digitsList) (fun _ _ => List.Perm.refl _)⟩

/-- C9: the target clue count drawn for a tier lies in the inclusive window
`[tmin, tmax]`, and `createPuzzle` zeroes at most `81 - target` cells of a
full solution grid, so the puzzle keeps at least `target` clues. -/
theorem c9_clue_bounds (t : Tier) (rnd : Nat) (S : Grid)
    (ps : List ((Fin 9) × (Fin 9))) (hminmax : t.tmin ≤ t.tmax) (hmax : t.tmax ≤ 81)
    (hfull : FullGrid S) :
    t.tmin ≤ targetOf t rnd ∧ targetOf t rnd ≤ t.tmax ∧
      targetOf t rnd ≤ clueCount (createPuzzle S (targetOf t rnd) ps) := by
  have hmod : rnd % (t.tmax - t.tmin + 1) < t.tmax - t.tmin + 1 :=
    Nat.mod_lt rnd (by omega)
  unfold targetOf
  refine ⟨by omega, by omega, ?_⟩
  have hstart : 81 ≤ clueCount S + 0 := by
    rw [clueCount_full hfull]
  have hloop := removeLoop_clueCount ps (81 - (t.tmin + rnd % (t.tmax - t.tmin + 1)))
    S 0 (by omega) hstart
  unfold createPuzzle
  omega

/-- Witness for C9: the easy tier at the canonical grid with an empty
position list. -/
theorem c9_witness :
    (Tier.mk 40 45).tmin ≤ (Tier.mk 40 45).tmax ∧ (Tier.mk 40 45).tmax ≤ 81 ∧
      FullGrid canonical ∧
      ((Tier.mk 40 45).tmin ≤ targetOf (Tier.mk 40 45) 0 ∧
        targetOf (Tier.mk 40 45) 0 ≤ (Tier.mk 40 45).tmax ∧
        targetOf (Tier.mk 40 45) 0 ≤
          clueCount (createPuzzle canonical (targetOf (Tier.mk 40 45) 0) [])) :=
  ⟨by decide, by decide, by decide,
    c9_clue_bounds (Tier.mk 40 45) 0 canonical [] (by decide) (by decide) (by decide)⟩


/-!
## The solver's frame: writes go only to the copy

`solveSudoku` first copies its argument (`const copy = grid.map(row =>
[...row])`, part_000 line 241, script.js line 238) and every subsequent
write — placements and the undo writes `copy[row][col] = 0` — targets
`copy`.  `solvePairAux` makes this write discipline explicit: the state is
the pair `(input, work)` and each `setCell` acts on the second component,
including the explicit undo on a failed branch, so the final state records
every write the JS performs.
-/

theorem setCell_setCell (g : Grid) (r c : Fin 9) (v w : Cell) :
    setCell (setCell g r c v) r c w = setCell g r c w := by
  funext r' c'
  by_cases h : r' = r ∧ c' = c
  · obtain ⟨h1, h2⟩ := h; subst h1; subst h2
    rw [setCell_same, setCell_same]
  · rw [setCell_other _ _ _ _ h, setCell_other _ _ _ _ h, setCell_other _ _ _ _ h]

theorem setCell_zero_of_zero {g : Grid} {r c : Fin 9} (h : g r c = 0) :
    setCell g r c 0 = g := by
  have := setCell_self g r c
  rw [h] at this
  exact this

/-- One iteration of the solver's digit loop over the pair state (`res` is
the JS `solve(row, col + 1)` call, abstracted as `f`): skip once a solution
was found, try a valid placement, and undo it (`copy[row][col] = 0`) when
the recursive call fails. -/
def solveStep (f : Grid × Grid → (Grid × Grid) × Bool) (r c : Fin 9)
    (acc : (Grid × Grid) × Bool) (v : Cell) : (Grid × Grid) × Bool :=
  if acc.2 then acc
  else if isValidPlacement acc.1.2 r c v then
    let res := f (acc.1.1, setCell acc.1.2 r c v)
    if res.2 then res
    else ((res.1.1, setCell res.1.2 r c 0), false)
  else acc

/-- The solver recursion over the explicit `(input, work)` pair: the `Bool`
is the JS return value, and the pair records the grids after all writes. -/
def solvePairAux : Nat → Grid × Grid → (Grid × Grid) × Bool
  | 0, st => (st, true)
  | n + 1, st =>
    if st.2 (rowAt n) (colAt n) ≠ 0 then solvePairAux n st
    else digitsList.foldl (solveStep (solvePairAux n) (rowAt n) (colAt n)) (st, false)

/-- `solveSudoku` with its frame made explicit: the final `(input, work)`
pair together with the JS return value turned into an `Option`. -/
def solveWithFrame (g : Grid) : (Grid × Grid) × Option Grid :=
  ((solvePairAux 81 (g, fun r c => g r c)).1,
    if (solvePairAux 81 (g, fun r c => g r c)).2 then
      some (solvePairAux 81 (g, fun r c => g r c)).1.2
    else none)

theorem solveStep_skip {f : Grid × Grid → (Grid × Grid) × Bool} {r c : Fin 9}
    {acc : (Grid × Grid) × Bool} (h : acc.2 = true) (v : Cell) :
    solveStep f r c acc v = acc := by
  simp [solveStep, h]

theorem solveStep_invalid {f : Grid × Grid → (Grid × Grid) × Bool} {r c : Fin 9}
    {acc : (Grid × Grid) × Bool} (h : acc.2 = false) {v : Cell}
    (hbad : ¬ isValidPlacement acc.1.2 r c v = true) :
    solveStep f r c acc v = acc := by
  simp [solveStep, h, hbad]

theorem solveStep_found {f : Grid × Grid → (Grid × Grid) × Bool} {r c : Fin 9}
    {acc : (Grid × Grid) × Bool} (h : acc.2 = false) {v : Cell}
    (hok : isValidPlacement acc.1.2 r c v = true)
    (hres : (f (acc.1.1, setCell acc.1.2 r c v)).2 = true) :
    solveStep f r c acc v = f (acc.1.1, setCell acc.1.2 r c v) := by
  simp [solveStep, h, hok, hres]

theorem solveStep_undo {f : Grid × Grid → (Grid × Grid) × Bool} {r c : Fin 9}
    {acc : (Grid × Grid) × Bool} (h : acc.2 = false) {v : Cell}
    (hok : isValidPlacement acc.1.2 r c v = true)
    (hres : (f (acc.1.1, setCell acc.1.2 r c v)).2 = false) :
    solveStep f r c acc v =
      (((f (acc.1.1, setCell acc.1.2 r c v)).1.1,
        setCell (f (acc.1.1, setCell acc.1.2 r c v)).1.2 r c 0), false) := by
  simp [solveStep, h, hok, hres]

theorem foldl_solveStep_done {f : Grid × Grid → (Grid × Grid) × Bool} {r c : Fin 9} :
    ∀ (l : List Cell) (acc : (Grid × Grid) × Bool), acc.2 = true →
      l.foldl (solveStep f r c) acc = acc := by
  intro l
  induction l with
  | nil => intro acc _; rfl
  | cons v vs ihl =>
    intro acc hacc
    rw [List.foldl_cons, solveStep_skip hacc, ihl acc hacc]

/-- No write of the solver ever touches the first (input) component. -/
theorem solvePairAux_input : ∀ (n : Nat) (st : Grid × Grid),
    (solvePairAux n st).1.1 = st.1 := by
  intro n
  induction n with
  | zero => intro st; rfl
  | succ n ih =>
    intro st
    simp only [solvePairAux]
    split
    · exact ih st
    · have hfold : ∀ (l : List Cell) (acc : (Grid × Grid) × Bool), acc.1.1 = st.1 →
          (l.foldl (solveStep (solvePairAux n) (rowAt n) (colAt n)) acc).1.1 = st.1 := by
        intro l
        induction l with
        | nil => intro acc hacc; exact hacc
        | cons v vs ihl =>
          intro acc hacc
          rw [List.foldl_cons]
          apply ihl
          cases hacc2 : acc.2 with
          | true => rw [solveStep_skip hacc2]; exact hacc
          | false =>
            by_cases hok : isValidPlacement acc.1.2 (rowAt n) (colAt n) v = true
            · cases hres : (solvePairAux n
                  (acc.1.1, setCell acc.1.2 (rowAt n) (colAt n) v)).2 with
              | true =>
                rw [solveStep_found hacc2 hok hres]
                rw [ih (acc.1.1, setCell acc.1.2 (rowAt n) (colAt n) v)]
                exact hacc
              | false =>
                rw [solveStep_undo hacc2 hok hres]
                simp only
                rw [ih (acc.1.1, setCell acc.1.2 (rowAt n) (colAt n) v)]
                exact hacc
            · rw [solveStep_invalid hacc2 hok]; exact hacc
      exact hfold digitsList (st, false) rfl

/-- `solveStep` on the not-yet-found state with work grid `g`: a valid
placement whose recursive call succeeds returns that call's state. -/
theorem solveStepP_found {f : Grid × Grid → (Grid × Grid) × Bool} {r c : Fin 9}
    {a1 g : Grid} {v : Cell} (hok : isValidPlacement g r c v = true)
    (hres : (f (a1, setCell g r c v)).2 = true) :
    solveStep f r c ((a1, g), false) v = f (a1, setCell g r c v) := by
  simp [solveStep, hok, hres]

/-- `solveStep` on the not-yet-found state: a valid placement whose
recursive call fails is undone by the write `copy[row][col] = 0`. -/
theorem solveStepP_undo {f : Grid × Grid → (Grid × Grid) × Bool} {r c : Fin 9}
    {a1 g : Grid} {v : Cell} (hok : isValidPlacement g r c v = true)
    (hres : (f (a1, setCell g r c v)).2 = false) :
    solveStep f r c ((a1, g), false) v =
      (((f (a1, setCell g r c v)).1.1, setCell (f (a1, setCell g r c v)).1.2 r c 0), false) := by
  simp [solveStep, hok, hres]

theorem solveStepP_invalid {f : Grid × Grid → (Grid × Grid) × Bool} {r c : Fin 9}
    {a1 g : Grid} {v : Cell} (hbad : ¬ isValidPlacement g r c v = true) :
    solveStep f r c ((a1, g), false) v = ((a1, g), false) := by
  simp [solveStep, hbad]

/-- The pair recursion computes exactly the pure solver on the work
component: success yields the work grid that `genAux` returns, and failure
restores the work grid to its initial contents (every placement is undone). -/
theorem solvePairAux_agrees : ∀ (n : Nat) (st : Grid × Grid),
    ((solvePairAux n st).2 = true →
      genAux (fun _ _ => digitsList) n st.2 = some (solvePairAux n st).1.2) ∧
    ((solvePairAux n st).2 = false →
      genAux (fun _ _ => digitsList) n st.2 = none ∧ (solvePairAux n st).1.2 = st.2) := by
  intro n
  induction n with
  | zero =>
    intro st
    exact ⟨fun _ => rfl, fun h => Bool.noConfusion h⟩
  | succ n ih =>
    intro st
    by_cases hcur : st.2 (rowAt n) (colAt n) ≠ 0
    · have hunfold : solvePairAux (n + 1) st = solvePairAux n st := by
        simp only [solvePairAux, if_pos hcur]
      have hgen : genAux (fun _ _ => digitsList) (n + 1) st.2 =
          genAux (fun _ _ => digitsList) n st.2 := by
        simp only [genAux, if_pos hcur]
      rw [hunfold, hgen]
      exact ih st
    · have h0 : st.2 (rowAt n) (colAt n) = 0 := by
        by_contra h; exact hcur h
      have hunfold : solvePairAux (n + 1) st =
          digitsList.foldl (solveStep (solvePairAux n) (rowAt n) (colAt n)) (st, false) := by
        simp only [solvePairAux, if_neg hcur]
      have hgen : genAux (fun _ _ => digitsList) (n + 1) st.2 =
          digitsList.findSome? fun v =>
            if isValidPlacement st.2 (rowAt n) (colAt n) v then
              genAux (fun _ _ => digitsList) n (setCell st.2 (rowAt n) (colAt n) v)
            else none := by
        simp only [genAux, if_neg hcur]
      -- Every accumulator the loop passes on carries the restored work grid
      -- `st.2`, so it suffices to consider accumulators `((a1, st.2), false)`.
      have hfold : ∀ (l : List Cell) (a1 : Grid),
          ((l.foldl (solveStep (solvePairAux n) (rowAt n) (colAt n)) ((a1, st.2), false)).2 = true →
            (l.findSome? fun v =>
              if isValidPlacement st.2 (rowAt n) (colAt n) v then
                genAux (fun _ _ => digitsList) n (setCell st.2 (rowAt n) (colAt n) v)
              else none) =
              some (l.foldl (solveStep (solvePairAux n) (rowAt n) (colAt n))
                ((a1, st.2), false)).1.2) ∧
          ((l.foldl (solveStep (solvePairAux n) (rowAt n) (colAt n)) ((a1, st.2), false)).2 = false →
            (l.findSome? fun v =>
              if isValidPlacement st.2 (rowAt n) (colAt n) v then
                genAux (fun _ _ => digitsList) n (setCell st.2 (rowAt n) (colAt n) v)
              else none) = none ∧
            (l.foldl (solveStep (solvePairAux n) (rowAt n) (colAt n))
              ((a1, st.2), false)).1.2 = st.2) := by
        intro l
        induction l with
        | nil =>
          intro a1
          constructor
          · intro h
            rw [List.foldl_nil] at h
            exact Bool.noConfusion h
          · intro _
            exact ⟨rfl, rfl⟩
        | cons v vs ihl =>
          intro a1
          rw [List.foldl_cons]
          by_cases hok : isValidPlacement st.2 (rowAt n) (colAt n) v = true
          · cases hres : (solvePairAux n (a1, setCell st.2 (rowAt n) (colAt n) v)).2 with
            | true =>
              rw [solveStepP_found hok hres, foldl_solveStep_done vs _ hres]
              have hsome : genAux (fun _ _ => digitsList) n (setCell st.2 (rowAt n) (colAt n) v) =
                  some (solvePairAux n (a1, setCell st.2 (rowAt n) (colAt n) v)).1.2 :=
                (ih (a1, setCell st.2 (rowAt n) (colAt n) v)).1 hres
              have hflv : (if isValidPlacement st.2 (rowAt n) (colAt n) v then
                  genAux (fun _ _ => digitsList) n (setCell st.2 (rowAt n) (colAt n) v)
                else none) =
                  some (solvePairAux n (a1, setCell st.2 (rowAt n) (colAt n) v)).1.2 := by
                rw [if_pos hok]
                exact hsome
              rw [List.findSome?_cons_of_isSome _ (by rw [hflv]; rfl)]
              rw [hflv]
              constructor
              · intro _
                rfl
              · intro h
                rw [hres] at h
                exact Bool.noConfusion h
            | false =>
              obtain ⟨hnone, hrestore⟩ :=
                (ih (a1, setCell st.2 (rowAt n) (colAt n) v)).2 hres
              rw [solveStepP_undo hok hres]
              have hracc : setCell (solvePairAux n
                  (a1, setCell st.2 (rowAt n) (colAt n) v)).1.2 (rowAt n) (colAt n) 0 = st.2 := by
                rw [show (solvePairAux n (a1, setCell st.2 (rowAt n) (colAt n) v)).1.2 =
                    setCell st.2 (rowAt n) (colAt n) v from hrestore]
                rw [setCell_setCell]
                exact setCell_zero_of_zero h0
              rw [hracc]
              have hflv : (if isValidPlacement st.2 (rowAt n) (colAt n) v then
                  genAux (fun _ _ => digitsList) n (setCell st.2 (rowAt n) (colAt n) v)
                else none) = none := by
                rw [if_pos hok]
                exact hnone
              rw [List.findSome?_cons_of_isNone _ (by rw [hflv]; rfl)]
              exact ihl _
          · rw [solveStepP_invalid hok]
            have hflv : (if isValidPlacement st.2 (rowAt n) (colAt n) v then
                genAux (fun _ _ => digitsList) n (setCell st.2 (rowAt n) (colAt n) v)
              else none) = none := by
              rw [if_neg hok]
            rw [List.findSome?_cons_of_isNone _ (by rw [hflv]; rfl)]
            exact ihl a1
      rw [hunfold, hgen]
      have := hfold digitsList st.1
      constructor
      · intro h
        exact this.1 h
      · intro h
        exact this.2 h

/-- C10: the solver never mutates its argument — every write targets the
work copy, so after the run the input component equals the input cell for
cell, and the optional result is read off the copy exactly as the pure
solver computes it. -/
theorem c10_solve_frame (g : Grid) :
    (solveWithFrame g).1.1 = g ∧ (solveWithFrame g).2 = solveSudoku g := by
  constructor
  · exact solvePairAux_input 81 (g, fun r c => g r c)
  · unfold solveWithFrame solveSudoku
    cases hout : (solvePairAux 81 (g, fun r c => g r c)).2 with
    | true =>
      have := (solvePairAux_agrees 81 (g, fun r c => g r c)).1 hout
      simp only [hout, if_true]
      exact this.symm
    | false =>
      have := ((solvePairAux_agrees 81 (g, fun r c => g r c)).2 hout).1
      simp only [hout, Bool.false_eq_true, if_false]
      exact this.symm

/-!
## The game controller: board, notes, and the undo/redo ledger

Model of the `GameState` object and its mutation operations in `part_000`
(the `script.js` `GameController` is a near-duplicate with a two-stack
ledger; the claims cite `part_000`'s cursor ledger, which also matches the
spec's description in section 4.4).  Peripheral fields and effects (DOM,
timer, message, `localStorage`) are omitted; `historyIndex` (an integer
starting at `-1`) is encoded by the natural `cursor = historyIndex + 1`, so
`cursor = 0` is the pre-history position and the entry read by `undo` sits
at `cursor - 1`.  `Math.random()` choices (the hint cell) are explicit
parameters.  The branches of `inputNumber` are split into named helper
functions of the selected cell; their composition below is the body of the
JS function. -/

/-- Per-cell pencil notes: the JS `Set` of candidate digits. -/
abbrev NotesGrid := Fin 9 → Fin 9 → Finset Cell

/-- A history record (part_000: the objects passed to `addToHistory`):
`value`/`hint` carry the previous and new cell value, `note` the previous
and new note sets, `erase` the previous value and notes (its forward state
is always the cleared cell). -/
inductive HistoryEntry where
  | value (row col : Fin 9) (oldValue newValue : Cell)
  | note (row col : Fin 9) (oldNotes newNotes : Finset Cell)
  | erase (row col : Fin 9) (oldValue : Cell) (oldNotes : Finset Cell)
  | hint (row col : Fin 9) (oldValue newValue : Cell)
  deriving DecidableEq

/-- The modeled fields of the mutable `GameState` object
(part_000 lines 10-29). -/
structure GameState where
  board : Grid
  solution : Grid
  initial : Grid
  notes : NotesGrid
  selected : Option ((Fin 9) × (Fin 9))
  isNotesMode : Bool
  isPaused : Bool
  isComplete : Bool
  hintsRemaining : Nat
  history : List HistoryEntry
  cursor : Nat
  deriving DecidableEq

/-- Pure counterpart of the assignment `notes[row][col] = x`. -/
def setNotes (ns : NotesGrid) (r c : Fin 9) (x : Finset Cell) : NotesGrid :=
  fun r' c' => if r' = r then if c' = c then x else ns r' c' else ns r' c'

/-- `addToHistory(action)` (part_000 lines 754-762): drop the redo tail
(`history.slice(0, historyIndex + 1)` is `take cursor`), append, and
advance the cursor. -/
def addToHistory (e : HistoryEntry) (s : GameState) : GameState :=
  { s with history := s.history.take s.cursor ++ [e], cursor := s.cursor + 1 }

/-- `checkWinCondition()` (part_000 lines 695-717), reduced to its state
effect: mark the game complete when the board matches the solution. -/
def checkWinCondition (s : GameState) : GameState :=
  if s.board = s.solution then { s with isComplete := true } else s

/-- The note toggle of the JS `Set`: delete a present digit, add an absent
one (part_000 lines 516-520). -/
def toggledNotes (num : Cell) (ns : Finset Cell) : Finset Cell :=
  if num ∈ ns then ns.erase num else insert num ns

/-- The note-toggle part of `inputNumber` in notes mode (part_000 lines
511-531): flip membership of `num`, record the change (the `setsEqual`
test is mirrored although a toggle always changes the set). -/
def noteToggle (row col : Fin 9) (num : Cell) (s : GameState) : GameState :=
  if toggledNotes num (s.notes row col) = s.notes row col then
    { s with notes := setNotes s.notes row col (toggledNotes num (s.notes row col)) }
  else
    addToHistory
      (HistoryEntry.note row col (s.notes row col) (toggledNotes num (s.notes row col)))
      { s with notes := setNotes s.notes row col (toggledNotes num (s.notes row col)) }

/-- The value-clearing part of `inputNumber` in notes mode (part_000 lines
533-544): a cell receiving notes loses its value, recorded as a `value`
entry. -/
def clearValueAfterNote (row col : Fin 9) (s : GameState) : GameState :=
  if s.board row col ≠ 0 then
    addToHistory (HistoryEntry.value row col (s.board row col) 0)
      { s with board := setCell s.board row col 0 }
  else s

/-- The value branch of `inputNumber` (part_000 lines 546-571): inputting
the held digit clears the cell; a different digit is set and the cell's
notes are cleared (without being recorded). -/
def inputValueBranch (row col : Fin 9) (num : Cell) (s : GameState) : GameState :=
  if s.board row col = num then
    addToHistory (HistoryEntry.value row col (s.board row col) 0)
      { s with board := setCell s.board row col 0 }
  else
    addToHistory (HistoryEntry.value row col (s.board row col) num)
      { s with board := setCell s.board row col num,
               notes := setNotes s.notes row col ∅ }

/-- `inputNumber(num)` (part_000 lines 503-577): guards (selection, pause,
completion, prefilled cell), the notes-mode or value branch, then the win
check. -/
def inputNumber (num : Cell) (s : GameState) : GameState :=
  match s.selected with
  | none => s
  | some rc =>
    if s.isPaused ∨ s.isComplete then s
    else if s.initial rc.1 rc.2 ≠ 0 then s
    else checkWinCondition
      (if s.isNotesMode then clearValueAfterNote rc.1 rc.2 (noteToggle rc.1 rc.2 num s)
       else inputValueBranch rc.1 rc.2 num s)

/-- `eraseCell()` (part_000 lines 582-607). -/
def eraseCell (s : GameState) : GameState :=
  match s.selected with
  | none => s
  | some rc =>
    if s.isPaused ∨ s.isComplete then s
    else if s.initial rc.1 rc.2 ≠ 0 then s
    else if s.board rc.1 rc.2 ≠ 0 ∨ s.notes rc.1 rc.2 ≠ ∅ then
      addToHistory (HistoryEntry.erase rc.1 rc.2 (s.board rc.1 rc.2) (s.notes rc.1 rc.2))
        { s with board := setCell s.board rc.1 rc.2 0,
                 notes := setNotes s.notes rc.1 rc.2 ∅ }
    else s

/-- The row-major list of cells still differing from the solution
(part_000 lines 627-634). -/
def hintCandidates (s : GameState) : List ((Fin 9) × (Fin 9)) :=
  (List.finRange 9 ×ˢ List.finRange 9).filter fun p => s.board p.1 p.2 ≠ s.solution p.1 p.2

/-- `giveHint()` (part_000 lines 620-669): pick a candidate cell (the
random index is the parameter `k` reduced modulo the list length — the
lookup fails exactly when the list is empty, the JS "already complete"
no-op), reveal the solution digit, clear the notes, consume a hint, record
a `hint` entry, check for the win. -/
def giveHint (k : Nat) (s : GameState) : GameState :=
  if s.hintsRemaining = 0 ∨ s.isPaused ∨ s.isComplete then s
  else
    match (hintCandidates s)[k % (hintCandidates s).length]? with
    | none => s
    | some rc =>
      checkWinCondition (addToHistory
        (HistoryEntry.hint rc.1 rc.2 (s.board rc.1 rc.2) (s.solution rc.1 rc.2))
        { s with board := setCell s.board rc.1 rc.2 (s.solution rc.1 rc.2),
                 notes := setNotes s.notes rc.1 rc.2 ∅,
                 hintsRemaining := s.hintsRemaining - 1 })

/-- `applyAction(action, reverse)` (part_000 lines 798-819). -/
def applyAction (a : HistoryEntry) (reverse : Bool) (s : GameState) : GameState :=
  match a with
  | HistoryEntry.value row col oldV newV =>
    { s with board := setCell s.board row col (if reverse then oldV else newV) }
  | HistoryEntry.hint row col oldV newV =>
    { s with board := setCell s.board row col (if reverse then oldV else newV) }
  | HistoryEntry.note row col oldN newN =>
    { s with notes := setNotes s.notes row col (if reverse then oldN else newN) }
  | HistoryEntry.erase row col oldV oldN =>
    if reverse then
      { s with board := setCell s.board row col oldV,
               notes := setNotes s.notes row col oldN }
    else
      { s with board := setCell s.board row col 0,
               notes := setNotes s.notes row col ∅ }

/-- `undo()` (part_000 lines 767-777): no-op at the pre-history position or
while paused/complete; otherwise apply the entry at the cursor in reverse
and retreat.  (The JS reads `history[historyIndex]`, always in range here;
the `none` branch is unreachable for `cursor ≤ history.length`.) -/
def undo (s : GameState) : GameState :=
  if s.cursor = 0 ∨ s.isPaused ∨ s.isComplete then s
  else
    match s.history[s.cursor - 1]? with
    | none => s
    | some a => applyAction a true { s with cursor := s.cursor - 1 }

/-- `redo()` (part_000 lines 782-793). -/
def redo (s : GameState) : GameState :=
  if s.cursor ≥ s.history.length ∨ s.isPaused ∨ s.isComplete then s
  else
    match s.history[s.cursor]? with
    | none => s
    | some a => applyAction a false { s with cursor := s.cursor + 1 }

/-- `selectCell(row, col)` (part_000 lines 493-498). -/
def selectCell (row col : Fin 9) (s : GameState) : GameState :=
  if s.isPaused ∨ s.isComplete then s else { s with selected := some (row, col) }

/-- `toggleNotesMode()` (part_000 lines 612-615). -/
def toggleNotesMode (s : GameState) : GameState :=
  { s with isNotesMode := !s.isNotesMode }

/-- The recording (non-undo/redo) player operations. -/
inductive EditOp where
  | select (row col : Fin 9)
  | input (num : Cell)
  | eraseSel
  | toggleNotes
  | hintAt (k : Nat)

def applyEdit : EditOp → GameState → GameState
  | EditOp.select r c => selectCell r c
  | EditOp.input n => inputNumber n
  | EditOp.eraseSel => eraseCell
  | EditOp.toggleNotes => toggleNotesMode
  | EditOp.hintAt k => giveHint k

def applyEdits (es : List EditOp) (s : GameState) : GameState :=
  es.foldl (fun s e => applyEdit e s) s

/-- All mutation operations, undo/redo included (for the prefilled-cell
invariant). -/
inductive Op where
  | edit (e : EditOp)
  | undoOp
  | redoOp

def applyOp : Op → GameState → GameState
  | Op.edit e => applyEdit e
  | Op.undoOp => undo
  | Op.redoOp => redo

def applyOps (ops : List Op) (s : GameState) : GameState :=
  ops.foldl (fun s o => applyOp o s) s

/-- An undo/redo word. -/
inductive URStep where
  | u
  | r

def applyUR (w : List URStep) (s : GameState) : GameState :=
  w.foldl (fun s m => match m with | URStep.u => undo s | URStep.r => redo s) s

/-! ## Projection lemmas for `applyAction` -/

theorem applyAction_history (a : HistoryEntry) (rev : Bool) (s : GameState) :
    (applyAction a rev s).history = s.history := by
  cases a <;> cases rev <;> rfl

theorem applyAction_cursor (a : HistoryEntry) (rev : Bool) (s : GameState) :
    (applyAction a rev s).cursor = s.cursor := by
  cases a <;> cases rev <;> rfl

theorem applyAction_initial (a : HistoryEntry) (rev : Bool) (s : GameState) :
    (applyAction a rev s).initial = s.initial := by
  cases a <;> cases rev <;> rfl

theorem applyAction_solution (a : HistoryEntry) (rev : Bool) (s : GameState) :
    (applyAction a rev s).solution = s.solution := by
  cases a <;> cases rev <;> rfl

theorem applyAction_isPaused (a : HistoryEntry) (rev : Bool) (s : GameState) :
    (applyAction a rev s).isPaused = s.isPaused := by
  cases a <;> cases rev <;> rfl

theorem applyAction_isComplete (a : HistoryEntry) (rev : Bool) (s : GameState) :
    (applyAction a rev s).isComplete = s.isComplete := by
  cases a <;> cases rev <;> rfl

/-- C7: recording discards the redo tail.  In general, immediately after
`addToHistory` the cursor sits at the end of the log, so a following
`redo()` is a no-op; and from a fresh (empty-history) state, the sequence
`record(e); undo(); record(x)` leaves exactly the one entry `x` in the log
with the cursor on it. -/
theorem c7_record_truncates_redo (s : GameState) (e x : HistoryEntry)
    (hh : s.history = []) (hc : s.cursor = 0) (hp : s.isPaused = false)
    (hcm : s.isComplete = false) :
    (∀ (t : GameState) (a : HistoryEntry), redo (addToHistory a t) = addToHistory a t) ∧
    (addToHistory x (undo (addToHistory e s))).history = [x] ∧
    (addToHistory x (undo (addToHistory e s))).cursor = 1 := by
  have hs1h : (addToHistory e s).history = [e] := by
    show s.history.take s.cursor ++ [e] = [e]
    rw [hh, hc]
    rfl
  have hs1c : (addToHistory e s).cursor = 1 := by
    show s.cursor + 1 = 1
    rw [hc]
  have hguard : ¬((addToHistory e s).cursor = 0 ∨ (addToHistory e s).isPaused ∨
      (addToHistory e s).isComplete) := by
    intro hor
    rcases hor with h1 | h1 | h1
    · rw [hs1c] at h1
      exact one_ne_zero h1
    · have heq : (addToHistory e s).isPaused = s.isPaused := rfl
      rw [heq, hp] at h1
      exact Bool.noConfusion h1
    · have heq : (addToHistory e s).isComplete = s.isComplete := rfl
      rw [heq, hcm] at h1
      exact Bool.noConfusion h1
  have hu : undo (addToHistory e s) =
      applyAction e true { addToHistory e s with history := [e], cursor := 0 } := by
    unfold undo
    rw [if_neg hguard, hs1h, hs1c]
    rfl
  refine ⟨?_, ?_, ?_⟩
  · intro t a
    have hlen : (addToHistory a t).history.length ≤ (addToHistory a t).cursor := by
      show (t.history.take t.cursor ++ [a]).length ≤ t.cursor + 1
      rw [List.length_append, List.length_take]
      simp only [List.length_cons, List.length_nil]
      omega
    unfold redo
    rw [if_pos (Or.inl hlen)]
  · rw [hu]
    show (applyAction e true { addToHistory e s with history := [e], cursor := 0 }).history.take
      (applyAction e true { addToHistory e s with history := [e], cursor := 0 }).cursor ++ [x] = [x]
    rw [applyAction_history, applyAction_cursor]
    simp
  · rw [hu]
    show (applyAction e true { addToHistory e s with history := [e], cursor := 0 }).cursor + 1 = 1
    rw [applyAction_cursor]

/-- A concrete fresh state for the controller witnesses. -/
def freshState : GameState :=
  { board := createEmptyGrid
    solution := canonical
    initial := createEmptyGrid
    notes := fun _ _ => ∅
    selected := none
    isNotesMode := false
    isPaused := false
    isComplete := false
    hintsRemaining := 3
    history := []
    cursor := 0 }

/-- Witness for C7 on the fresh state with two concrete `value` entries. -/
theorem c7_witness :
    freshState.history = [] ∧ freshState.cursor = 0 ∧ freshState.isPaused = false ∧
      freshState.isComplete = false ∧
      ((∀ (t : GameState) (a : HistoryEntry), redo (addToHistory a t) = addToHistory a t) ∧
        (addToHistory (HistoryEntry.value 0 0 0 2)
          (undo (addToHistory (HistoryEntry.value 0 0 0 1) freshState))).history =
          [HistoryEntry.value 0 0 0 2] ∧
        (addToHistory (HistoryEntry.value 0 0 0 2)
          (undo (addToHistory (HistoryEntry.value 0 0 0 1) freshState))).cursor = 1) :=
  ⟨rfl, rfl, rfl, rfl,
    c7_record_truncates_redo freshState (HistoryEntry.value 0 0 0 1)
      (HistoryEntry.value 0 0 0 2) rfl rfl rfl rfl⟩

/-! ## C8: prefilled cells are read-only -/

/-- The cell a history record targets. -/
def entryPos : HistoryEntry → (Fin 9) × (Fin 9)
  | HistoryEntry.value r c _ _ => (r, c)
  | HistoryEntry.note r c _ _ => (r, c)
  | HistoryEntry.erase r c _ _ => (r, c)
  | HistoryEntry.hint r c _ _ => (r, c)

/-- The prefilled-cell invariant: prefilled cells still hold their initial
value, every history record targets a non-prefilled cell, and the clue grid
is a subgrid of the solution (true of every generated puzzle, by C1). -/
def PrefInv (s : GameState) : Prop :=
  (∀ r c, s.initial r c ≠ 0 → s.board r c = s.initial r c) ∧
  (∀ e ∈ s.history, s.initial (entryPos e).1 (entryPos e).2 = 0) ∧
  (∀ r c, s.initial r c ≠ 0 → s.initial r c = s.solution r c)

/-- Master step: any state whose board differs from `s` at most at one
non-prefilled cell, whose clue and solution grids are unchanged, and whose
history only adds records at that cell, keeps the invariant. -/
theorem prefInv_update {s t : GameState} (h : PrefInv s) {row col : Fin 9}
    (h0 : s.initial row col = 0)
    (hb : t.board = s.board ∨ ∃ v, t.board = setCell s.board row col v)
    (hi : t.initial = s.initial) (hsol : t.solution = s.solution)
    (hh : ∀ e ∈ t.history, e ∈ s.history ∨ entryPos e = (row, col)) :
    PrefInv t := by
  obtain ⟨h1, h2, h3⟩ := h
  refine ⟨?_, ?_, ?_⟩
  · intro r c hne
    rw [hi] at hne ⊢
    have hrc : ¬(r = row ∧ c = col) := by
      intro ⟨e1, e2⟩
      subst e1; subst e2
      exact hne h0
    rcases hb with hb | ⟨v, hb⟩
    · rw [hb]; exact h1 r c hne
    · rw [hb, setCell_other _ _ _ _ hrc]
      exact h1 r c hne
  · intro e he
    rw [hi]
    rcases hh e he with hmem | hpos
    · exact h2 e hmem
    · rw [hpos]; exact h0
  · intro r c hne
    rw [hi] at hne ⊢
    rw [hsol]
    exact h3 r c hne

theorem prefInv_checkWin {s : GameState} (h : PrefInv s) :
    PrefInv (checkWinCondition s) := by
  unfold checkWinCondition
  split
  · exact h
  · exact h

/-- Recording one entry targeting a non-prefilled cell, with any combined
update of that cell's board value, the notes grid, and the hint counter,
preserves the invariant. -/
theorem prefInv_record_mem {s t : GameState} (h : PrefInv s) {row col : Fin 9}
    (h0 : s.initial row col = 0)
    (hb : t.board = s.board ∨ ∃ v, t.board = setCell s.board row col v)
    (hi : t.initial = s.initial) (hsol : t.solution = s.solution)
    (hhist : ∃ e, entryPos e = (row, col) ∧
      t.history = s.history.take s.cursor ++ [e]) :
    PrefInv t := by
  obtain ⟨e, hpos, hhist⟩ := hhist
  apply prefInv_update h h0 hb hi hsol
  intro a ha
  rw [hhist, List.mem_append] at ha
  rcases ha with ha | ha
  · exact Or.inl (List.take_subset _ _ ha)
  · rw [List.mem_singleton] at ha
    subst ha
    exact Or.inr hpos

theorem prefInv_noteToggle {s : GameState} (h : PrefInv s) {row col : Fin 9}
    (h0 : s.initial row col = 0) (num : Cell) :
    PrefInv (noteToggle row col num s) := by
  unfold noteToggle
  split
  · exact h
  · exact prefInv_record_mem h h0 (Or.inl rfl) rfl rfl
      ⟨HistoryEntry.note row col (s.notes row col) (toggledNotes num (s.notes row col)),
        rfl, rfl⟩

theorem prefInv_clearValueAfterNote {s : GameState} (h : PrefInv s) {row col : Fin 9}
    (h0 : s.initial row col = 0) :
    PrefInv (clearValueAfterNote row col s) := by
  unfold clearValueAfterNote
  split
  · exact prefInv_record_mem h h0 (Or.inr ⟨0, rfl⟩) rfl rfl
      ⟨HistoryEntry.value row col (s.board row col) 0, rfl, rfl⟩
  · exact h

theorem prefInv_inputValueBranch {s : GameState} (h : PrefInv s) {row col : Fin 9}
    (h0 : s.initial row col = 0) (num : Cell) :
    PrefInv (inputValueBranch row col num s) := by
  unfold inputValueBranch
  split
  · exact prefInv_record_mem h h0 (Or.inr ⟨0, rfl⟩) rfl rfl
      ⟨HistoryEntry.value row col (s.board row col) 0, rfl, rfl⟩
  · exact prefInv_record_mem h h0 (Or.inr ⟨num, rfl⟩) rfl rfl
      ⟨HistoryEntry.value row col (s.board row col) num, rfl, rfl⟩

theorem prefInv_noteToggle_initial {s : GameState} {row col : Fin 9} (num : Cell) :
    (noteToggle row col num s).initial = s.initial := by
  unfold noteToggle
  split
  · rfl
  · rfl

theorem prefInv_inputNumber (num : Cell) {s : GameState} (h : PrefInv s) :
    PrefInv (inputNumber num s) := by
  unfold inputNumber
  split
  · exact h
  · next rc heq =>
    split
    · exact h
    · split
      · exact h
      · next hpre =>
        have h0 : s.initial rc.1 rc.2 = 0 := by
          by_contra hx
          exact hpre hx
        apply prefInv_checkWin
        split
        · apply prefInv_clearValueAfterNote (prefInv_noteToggle h h0 num)
          rw [prefInv_noteToggle_initial]
          exact h0
        · exact prefInv_inputValueBranch h h0 num

theorem prefInv_eraseCell {s : GameState} (h : PrefInv s) : PrefInv (eraseCell s) := by
  unfold eraseCell
  split
  · exact h
  · next rc heq =>
    split
    · exact h
    · split
      · exact h
      · next hpre =>
        have h0 : s.initial rc.1 rc.2 = 0 := by
          by_contra hx
          exact hpre hx
        split
        · exact prefInv_record_mem h h0 (Or.inr ⟨0, rfl⟩) rfl rfl
            ⟨HistoryEntry.erase rc.1 rc.2 (s.board rc.1 rc.2) (s.notes rc.1 rc.2), rfl, rfl⟩
        · exact h

theorem prefInv_giveHint (k : Nat) {s : GameState} (h : PrefInv s) :
    PrefInv (giveHint k s) := by
  unfold giveHint
  split
  · exact h
  · cases hget : (hintCandidates s)[k % (hintCandidates s).length]? with
    | none => exact h
    | some rc =>
      have hmem := List.getElem?_mem hget
      unfold hintCandidates at hmem
      rw [List.mem_filter] at hmem
      have hdiff : s.board rc.1 rc.2 ≠ s.solution rc.1 rc.2 := by
        have hm2 := hmem.2
        simpa using hm2
      have h0 : s.initial rc.1 rc.2 = 0 := by
        by_contra hx
        exact hdiff (by rw [h.1 rc.1 rc.2 hx, h.2.2 rc.1 rc.2 hx])
      apply prefInv_checkWin
      exact prefInv_record_mem h h0 (Or.inr ⟨s.solution rc.1 rc.2, rfl⟩) rfl rfl
        ⟨HistoryEntry.hint rc.1 rc.2 (s.board rc.1 rc.2) (s.solution rc.1 rc.2), rfl, rfl⟩

theorem prefInv_applyAction {s : GameState} (h : PrefInv s) (a : HistoryEntry)
    (rev : Bool) (h0 : s.initial (entryPos a).1 (entryPos a).2 = 0) (cur : Nat) :
    PrefInv (applyAction a rev { s with cursor := cur }) := by
  cases a with
  | value row col oldV newV =>
    exact prefInv_update h h0 (Or.inr ⟨if rev then oldV else newV, rfl⟩) rfl rfl
      fun e he => Or.inl he
  | hint row col oldV newV =>
    exact prefInv_update h h0 (Or.inr ⟨if rev then oldV else newV, rfl⟩) rfl rfl
      fun e he => Or.inl he
  | note row col oldN newN =>
    exact prefInv_update h h0 (Or.inl rfl) rfl rfl fun e he => Or.inl he
  | erase row col oldV oldN =>
    cases rev with
    | true =>
      exact prefInv_update h h0 (Or.inr ⟨oldV, rfl⟩) rfl rfl fun e he => Or.inl he
    | false =>
      exact prefInv_update h h0 (Or.inr ⟨0, rfl⟩) rfl rfl fun e he => Or.inl he

theorem prefInv_undo {s : GameState} (h : PrefInv s) : PrefInv (undo s) := by
  unfold undo
  split
  · exact h
  · cases hget : s.history[s.cursor - 1]? with
    | none => exact h
    | some a =>
      exact prefInv_applyAction h a true (h.2.1 a (List.getElem?_mem hget)) (s.cursor - 1)

theorem prefInv_redo {s : GameState} (h : PrefInv s) : PrefInv (redo s) := by
  unfold redo
  split
  · exact h
  · cases hget : s.history[s.cursor]? with
    | none => exact h
    | some a =>
      exact prefInv_applyAction h a false (h.2.1 a (List.getElem?_mem hget)) (s.cursor + 1)

theorem prefInv_applyOp (o : Op) {s : GameState} (h : PrefInv s) :
    PrefInv (applyOp o s) := by
  cases o with
  | edit e =>
    cases e with
    | select r c =>
      show PrefInv (selectCell r c s)
      unfold selectCell
      split
      · exact h
      · exact h
    | input n => exact prefInv_inputNumber n h
    | eraseSel => exact prefInv_eraseCell h
    | toggleNotes => exact h
    | hintAt k => exact prefInv_giveHint k h
  | undoOp => exact prefInv_undo h
  | redoOp => exact prefInv_redo h

/-- C8: from a freshly started game (board initialized from the clue grid,
empty history, clues a subgrid of the solution), after any sequence of the
mutation operations — number input, erase, hint, undo, redo (plus selection
and notes-mode toggles) — every prefilled cell still holds its initial
value. -/
theorem c8_prefilled_readonly (s0 : GameState) (ops : List Op)
    (hb : s0.board = s0.initial) (hh : s0.history = [])
    (hcs : ∀ r c, s0.initial r c ≠ 0 → s0.initial r c = s0.solution r c) :
    ∀ r c, (applyOps ops s0).initial r c ≠ 0 →
      (applyOps ops s0).board r c = (applyOps ops s0).initial r c := by
  have hinv0 : PrefInv s0 := by
    refine ⟨fun r c _ => by rw [hb], ?_, hcs⟩
    intro e he
    rw [hh] at he
    exact absurd he (List.not_mem_nil e)
  have hind : ∀ (l : List Op) (s : GameState), PrefInv s → PrefInv (applyOps l s) := by
    intro l
    induction l with
    | nil => intro s hs; exact hs
    | cons o rest ih =>
      intro s hs
      exact ih _ (prefInv_applyOp o hs)
  exact (hind ops s0 hinv0).1

/-- A concrete started game: the canonical grid as both clue grid and
solution, the first cell selected. -/
def startedState : GameState :=
  { board := canonical
    solution := canonical
    initial := canonical
    notes := fun _ _ => ∅
    selected := some (0, 0)
    isNotesMode := false
    isPaused := false
    isComplete := false
    hintsRemaining := 3
    history := []
    cursor := 0 }

/-- Witness for C8: one input attempt on the started game. -/
theorem c8_witness :
    startedState.board = startedState.initial ∧ startedState.history = [] ∧
      (∀ r c, startedState.initial r c ≠ 0 →
        startedState.initial r c = startedState.solution r c) ∧
      (∀ r c,
        (applyOps [Op.edit (EditOp.input 5)] startedState).initial r c ≠ 0 →
        (applyOps [Op.edit (EditOp.input 5)] startedState).board r c =
          (applyOps [Op.edit (EditOp.input 5)] startedState).initial r c) :=
  ⟨rfl, rfl, fun _ _ _ => rfl,
    c8_prefilled_readonly startedState [Op.edit (EditOp.input 5)] rfl rfl
      fun _ _ _ => rfl⟩

/-!
## C6: the ledger's board effect

The board value a record writes forward (`redo` direction) and backward
(`undo` direction), and the replay of a log prefix from a base board.  A
state is `Accurate` when its board is the replay of the log up to the
cursor and every record's stored previous value matches the replay at its
position — exactly what holds for logs produced by actually recording the
edits. -/

/-- The board write `applyAction(a, false)` performs. -/
def fwdBoard : HistoryEntry → Grid → Grid
  | HistoryEntry.value r c _ newV, b => setCell b r c newV
  | HistoryEntry.note _ _ _ _, b => b
  | HistoryEntry.erase r c _ _, b => setCell b r c 0
  | HistoryEntry.hint r c _ newV, b => setCell b r c newV

/-- The board write `applyAction(a, true)` performs. -/
def bwdBoard : HistoryEntry → Grid → Grid
  | HistoryEntry.value r c oldV _, b => setCell b r c oldV
  | HistoryEntry.note _ _ _ _, b => b
  | HistoryEntry.erase r c oldV _, b => setCell b r c oldV
  | HistoryEntry.hint r c oldV _, b => setCell b r c oldV

/-- Board obtained by replaying a log forward from `b0`. -/
def replayB (b0 : Grid) (l : List HistoryEntry) : Grid :=
  l.foldl (fun b e => fwdBoard e b) b0

/-- The record's stored previous value matches the board it was recorded
on. -/
def entryOldOK : HistoryEntry → Grid → Prop
  | HistoryEntry.value r c oldV _, b => b r c = oldV
  | HistoryEntry.note _ _ _ _, _ => True
  | HistoryEntry.erase r c oldV _, b => b r c = oldV
  | HistoryEntry.hint r c oldV _, b => b r c = oldV

/-- The ledger invariant relating a state to the base board `b0` it was
recorded from. -/
def Accurate (b0 : Grid) (s : GameState) : Prop :=
  s.cursor ≤ s.history.length ∧
  s.board = replayB b0 (s.history.take s.cursor) ∧
  ∀ (i : Nat) (e : HistoryEntry), s.history[i]? = some e →
    entryOldOK e (replayB b0 (s.history.take i))

theorem replayB_append (b0 : Grid) (l : List HistoryEntry) (e : HistoryEntry) :
    replayB b0 (l ++ [e]) = fwdBoard e (replayB b0 l) := by
  unfold replayB
  rw [List.foldl_append]
  rfl

/-- Undoing a record made on `b` restores `b`. -/
theorem bwd_fwd_cancel (e : HistoryEntry) (b : Grid) (hold : entryOldOK e b) :
    bwdBoard e (fwdBoard e b) = b := by
  cases e with
  | value r c oldV newV =>
    simp only [fwdBoard, bwdBoard, entryOldOK] at hold ⊢
    rw [setCell_setCell, ← hold, setCell_self]
  | note r c oldN newN => rfl
  | erase r c oldV oldN =>
    simp only [fwdBoard, bwdBoard, entryOldOK] at hold ⊢
    rw [setCell_setCell, ← hold, setCell_self]
  | hint r c oldV newV =>
    simp only [fwdBoard, bwdBoard, entryOldOK] at hold ⊢
    rw [setCell_setCell, ← hold, setCell_self]

/-- A state with the same log, cursor, and board is as accurate. -/
theorem accurate_same {b0 : Grid} {s t : GameState} (h : Accurate b0 s)
    (hh : t.history = s.history) (hc : t.cursor = s.cursor) (hb : t.board = s.board) :
    Accurate b0 t := by
  obtain ⟨h1, h2, h3⟩ := h
  exact ⟨by rw [hh, hc]; exact h1, by rw [hb, hh, hc]; exact h2,
    fun i e he => by rw [hh] at he ⊢; exact h3 i e he⟩

/-- Recording an entry whose stored previous value is the current board
value keeps the state accurate (this is the shape of every `addToHistory`
call site: truncate to the cursor, append, advance, and apply the entry's
forward board write). -/
theorem accurate_record {b0 : Grid} {s : GameState} (h : Accurate b0 s)
    {e : HistoryEntry} {t : GameState}
    (hh : t.history = s.history.take s.cursor ++ [e]) (hc : t.cursor = s.cursor + 1)
    (hb : t.board = fwdBoard e s.board) (hold : entryOldOK e s.board) :
    Accurate b0 t := by
  obtain ⟨h1, h2, h3⟩ := h
  have hlt : (s.history.take s.cursor).length = s.cursor := by
    rw [List.length_take]
    omega
  refine ⟨?_, ?_, ?_⟩
  · rw [hh, hc, List.length_append, hlt]
    simp
  · rw [hb, hh, hc]
    have hfull : (s.history.take s.cursor ++ [e]).length ≤ s.cursor + 1 := by
      rw [List.length_append, hlt]
      simp
    rw [List.take_of_length_le hfull, replayB_append, h2]
  · intro i a ha
    rw [hh] at ha
    rcases Nat.lt_or_ge i s.cursor with hi | hi
    · have hi2 : i < (s.history.take s.cursor).length := by omega
      rw [List.getElem?_append_left hi2, List.getElem?_take_of_lt hi] at ha
      have hpre : (s.history.take s.cursor ++ [e]).take i = s.history.take i := by
        rw [List.take_append_of_le_length (by omega), List.take_take]
        congr 1
        omega
      rw [hh, hpre]
      exact h3 i a ha
    · have hi2 : (s.history.take s.cursor).length ≤ i := by omega
      rw [List.getElem?_append_right hi2, hlt] at ha
      cases hieq : i - s.cursor with
      | zero =>
        have hie : i = s.cursor := by omega
        rw [hieq] at ha
        simp only [List.getElem?_cons_zero, Option.some_inj] at ha
        subst ha
        have hpre : (s.history.take s.cursor ++ [e]).take i = s.history.take s.cursor := by
          rw [hie, List.take_append_of_le_length (by omega), List.take_take]
          congr 1
          omega
        rw [hh, hpre, ← h2]
        exact hold
      | succ m =>
        rw [hieq] at ha
        simp at ha

/-! ## Every edit keeps the state accurate -/

theorem accurate_checkWin {b0 : Grid} {s : GameState} (h : Accurate b0 s) :
    Accurate b0 (checkWinCondition s) := by
  unfold checkWinCondition
  split
  · exact accurate_same h rfl rfl rfl
  · exact h

theorem accurate_noteToggle {b0 : Grid} {s : GameState} (h : Accurate b0 s)
    (row col : Fin 9) (num : Cell) : Accurate b0 (noteToggle row col num s) := by
  unfold noteToggle
  split
  · exact accurate_same h rfl rfl rfl
  · exact accurate_record h rfl rfl rfl trivial

theorem accurate_clearValueAfterNote {b0 : Grid} {s : GameState} (h : Accurate b0 s)
    (row col : Fin 9) : Accurate b0 (clearValueAfterNote row col s) := by
  unfold clearValueAfterNote
  split
  · exact accurate_record h rfl rfl rfl rfl
  · exact h

theorem accurate_inputValueBranch {b0 : Grid} {s : GameState} (h : Accurate b0 s)
    (row col : Fin 9) (num : Cell) : Accurate b0 (inputValueBranch row col num s) := by
  unfold inputValueBranch
  split
  · exact accurate_record h rfl rfl rfl rfl
  · exact accurate_record h rfl rfl rfl rfl

theorem accurate_inputNumber {b0 : Grid} {s : GameState} (h : Accurate b0 s)
    (num : Cell) : Accurate b0 (inputNumber num s) := by
  unfold inputNumber
  split
  · exact h
  · split
    · exact h
    · split
      · exact h
      · apply accurate_checkWin
        split
        · exact accurate_clearValueAfterNote (accurate_noteToggle h _ _ num) _ _
        · exact accurate_inputValueBranch h _ _ num

theorem accurate_eraseCell {b0 : Grid} {s : GameState} (h : Accurate b0 s) :
    Accurate b0 (eraseCell s) := by
  unfold eraseCell
  split
  · exact h
  · split
    · exact h
    · split
      · exact h
      · split
        · exact accurate_record h rfl rfl rfl rfl
        · exact h

theorem accurate_giveHint {b0 : Grid} {s : GameState} (h : Accurate b0 s) (k : Nat) :
    Accurate b0 (giveHint k s) := by
  unfold giveHint
  split
  · exact h
  · split
    · exact h
    · exact accurate_checkWin (accurate_record h rfl rfl rfl rfl)

theorem accurate_applyEdit (e : EditOp) {b0 : Grid} {s : GameState} (h : Accurate b0 s) :
    Accurate b0 (applyEdit e s) := by
  cases e with
  | select r c =>
    show Accurate b0 (selectCell r c s)
    unfold selectCell
    split
    · exact h
    · exact accurate_same h rfl rfl rfl
  | input n => exact accurate_inputNumber h n
  | eraseSel => exact accurate_eraseCell h
  | toggleNotes => exact accurate_same h rfl rfl rfl
  | hintAt k => exact accurate_giveHint h k

theorem accurate_applyEdits (es : List EditOp) {b0 : Grid} {s : GameState}
    (h : Accurate b0 s) : Accurate b0 (applyEdits es s) := by
  induction es generalizing s with
  | nil => exact h
  | cons e rest ih => exact ih (accurate_applyEdit e h)

/-! ## Edits do not pause the game and never unset completion -/

theorem checkWin_isPaused (s : GameState) :
    (checkWinCondition s).isPaused = s.isPaused := by
  unfold checkWinCondition
  split
  · rfl
  · rfl

theorem noteToggle_isPaused (row col : Fin 9) (num : Cell) (s : GameState) :
    (noteToggle row col num s).isPaused = s.isPaused := by
  unfold noteToggle
  split
  · rfl
  · rfl

theorem clearValueAfterNote_isPaused (row col : Fin 9) (s : GameState) :
    (clearValueAfterNote row col s).isPaused = s.isPaused := by
  unfold clearValueAfterNote
  split
  · rfl
  · rfl

theorem inputValueBranch_isPaused (row col : Fin 9) (num : Cell) (s : GameState) :
    (inputValueBranch row col num s).isPaused = s.isPaused := by
  unfold inputValueBranch
  split
  · rfl
  · rfl

theorem applyEdit_isPaused (e : EditOp) (s : GameState) :
    (applyEdit e s).isPaused = s.isPaused := by
  cases e with
  | select r c =>
    show (selectCell r c s).isPaused = s.isPaused
    unfold selectCell
    split
    · rfl
    · rfl
  | input n =>
    show (inputNumber n s).isPaused = s.isPaused
    unfold inputNumber
    split
    · rfl
    · split
      · rfl
      · split
        · rfl
        · rw [checkWin_isPaused]
          split
          · rw [clearValueAfterNote_isPaused, noteToggle_isPaused]
          · rw [inputValueBranch_isPaused]
  | eraseSel =>
    show (eraseCell s).isPaused = s.isPaused
    unfold eraseCell
    split
    · rfl
    · split
      · rfl
      · split
        · rfl
        · split
          · rfl
          · rfl
  | toggleNotes => rfl
  | hintAt k =>
    show (giveHint k s).isPaused = s.isPaused
    unfold giveHint
    split
    · rfl
    · split
      · rfl
      · rw [checkWin_isPaused]
        rfl

theorem applyEdits_isPaused (es : List EditOp) (s : GameState) :
    (applyEdits es s).isPaused = s.isPaused := by
  induction es generalizing s with
  | nil => rfl
  | cons e rest ih =>
    show (applyEdits rest (applyEdit e s)).isPaused = s.isPaused
    rw [ih, applyEdit_isPaused]

theorem applyEdit_complete (e : EditOp) {s : GameState} (h : s.isComplete = true) :
    (applyEdit e s).isComplete = true := by
  cases e with
  | select r c =>
    show (selectCell r c s).isComplete = true
    unfold selectCell
    rw [if_pos (Or.inr h)]
    exact h
  | input n =>
    show (inputNumber n s).isComplete = true
    unfold inputNumber
    split
    · exact h
    · rw [if_pos (Or.inr h)]
      exact h
  | eraseSel =>
    show (eraseCell s).isComplete = true
    unfold eraseCell
    split
    · exact h
    · rw [if_pos (Or.inr h)]
      exact h
  | toggleNotes => exact h
  | hintAt k =>
    show (giveHint k s).isComplete = true
    unfold giveHint
    rw [if_pos (Or.inr (Or.inr h))]
    exact h

theorem applyEdits_complete_mono (es : List EditOp) {s : GameState}
    (h : (applyEdits es s).isComplete = false) : s.isComplete = false := by
  induction es generalizing s with
  | nil => exact h
  | cons e rest ih =>
    have hmid := ih (s := applyEdit e s) h
    cases hcs : s.isComplete with
    | false => rfl
    | true => rw [applyEdit_complete e hcs] at hmid; exact hmid

/-! ## After the recording phase the cursor sits at the end of the log -/

theorem addToHistory_cursorLen {s : GameState} (h : s.cursor = s.history.length)
    (e : HistoryEntry) :
    (addToHistory e s).cursor = (addToHistory e s).history.length := by
  show s.cursor + 1 = (s.history.take s.cursor ++ [e]).length
  rw [List.length_append, List.length_take]
  simp only [List.length_cons, List.length_nil]
  omega

theorem checkWin_cursorLen {s : GameState} (h : s.cursor = s.history.length) :
    (checkWinCondition s).cursor = (checkWinCondition s).history.length := by
  unfold checkWinCondition
  split
  · exact h
  · exact h

theorem noteToggle_cursorLen {s : GameState} (h : s.cursor = s.history.length)
    (row col : Fin 9) (num : Cell) :
    (noteToggle row col num s).cursor = (noteToggle row col num s).history.length := by
  unfold noteToggle
  split
  · exact h
  · exact addToHistory_cursorLen h _

theorem clearValueAfterNote_cursorLen {s : GameState} (h : s.cursor = s.history.length)
    (row col : Fin 9) :
    (clearValueAfterNote row col s).cursor =
      (clearValueAfterNote row col s).history.length := by
  unfold clearValueAfterNote
  split
  · exact addToHistory_cursorLen h _
  · exact h

theorem inputValueBranch_cursorLen {s : GameState} (h : s.cursor = s.history.length)
    (row col : Fin 9) (num : Cell) :
    (inputValueBranch row col num s).cursor =
      (inputValueBranch row col num s).history.length := by
  unfold inputValueBranch
  split
  · exact addToHistory_cursorLen h _
  · exact addToHistory_cursorLen h _

theorem applyEdit_cursorLen (e : EditOp) {s : GameState}
    (h : s.cursor = s.history.length) :
    (applyEdit e s).cursor = (applyEdit e s).history.length := by
  cases e with
  | select r c =>
    show (selectCell r c s).cursor = (selectCell r c s).history.length
    unfold selectCell
    split
    · exact h
    · exact h
  | input n =>
    show (inputNumber n s).cursor = (inputNumber n s).history.length
    unfold inputNumber
    split
    · exact h
    · split
      · exact h
      · split
        · exact h
        · apply checkWin_cursorLen
          split
          · exact clearValueAfterNote_cursorLen (noteToggle_cursorLen h _ _ _) _ _
          · exact inputValueBranch_cursorLen h _ _ _
  | eraseSel =>
    show (eraseCell s).cursor = (eraseCell s).history.length
    unfold eraseCell
    split
    · exact h
    · split
      · exact h
      · split
        · exact h
        · split
          · exact addToHistory_cursorLen h _
          · exact h
  | toggleNotes => exact h
  | hintAt k =>
    show (giveHint k s).cursor = (giveHint k s).history.length
    unfold giveHint
    split
    · exact h
    · split
      · exact h
      · exact checkWin_cursorLen (addToHistory_cursorLen h _)

theorem applyEdits_cursorLen (es : List EditOp) {s : GameState}
    (h : s.cursor = s.history.length) :
    (applyEdits es s).cursor = (applyEdits es s).history.length := by
  induction es generalizing s with
  | nil => exact h
  | cons e rest ih => exact ih (applyEdit_cursorLen e h)

/-! ## Undo and redo move along the replay of the log -/

theorem applyAction_board_true (a : HistoryEntry) (u : GameState) :
    (applyAction a true u).board = bwdBoard a u.board := by
  cases a <;> rfl

theorem applyAction_board_false (a : HistoryEntry) (u : GameState) :
    (applyAction a false u).board = fwdBoard a u.board := by
  cases a <;> rfl

theorem accurate_undo {b0 : Grid} {s : GameState} (h : Accurate b0 s)
    (hp : s.isPaused = false) (hcm : s.isComplete = false) :
    Accurate b0 (undo s) ∧ (undo s).history = s.history ∧
      (undo s).cursor = s.cursor - 1 ∧ (undo s).isPaused = false ∧
      (undo s).isComplete = false := by
  unfold undo
  split
  · next hg =>
    rcases hg with h1 | h1 | h1
    · exact ⟨h, rfl, by omega, hp, hcm⟩
    · rw [hp] at h1
      exact absurd h1 Bool.false_ne_true
    · rw [hcm] at h1
      exact absurd h1 Bool.false_ne_true
  · next hg =>
    have hc0 : s.cursor ≠ 0 := fun hx => hg (Or.inl hx)
    have hklen : s.cursor - 1 < s.history.length := by
      have := h.1
      omega
    cases hget : s.history[s.cursor - 1]? with
    | none =>
      rw [List.getElem?_eq_getElem hklen] at hget
      exact absurd hget (by simp)
    | some a =>
      rw [List.getElem?_eq_getElem hklen, Option.some_inj] at hget
      have hboard : s.board =
          fwdBoard a (replayB b0 (s.history.take (s.cursor - 1))) := by
        have hsucc : s.history.take s.cursor =
            s.history.take (s.cursor - 1) ++ [a] := by
          have hcs : s.cursor = (s.cursor - 1) + 1 := by omega
          rw [hcs, List.take_succ, List.getElem?_eq_getElem hklen, hget]
          simp
        rw [h.2.1, hsucc, replayB_append]
      have hold : entryOldOK a (replayB b0 (s.history.take (s.cursor - 1))) := by
        apply h.2.2 (s.cursor - 1) a
        rw [List.getElem?_eq_getElem hklen, hget]
      refine ⟨⟨?_, ?_, ?_⟩, ?_, ?_, ?_, ?_⟩
      · rw [applyAction_cursor, applyAction_history]
        show s.cursor - 1 ≤ s.history.length
        omega
      · rw [applyAction_board_true, applyAction_history, applyAction_cursor]
        show bwdBoard a s.board = replayB b0 (s.history.take (s.cursor - 1))
        rw [hboard, bwd_fwd_cancel a _ hold]
      · intro i e he
        rw [applyAction_history] at he
        rw [applyAction_history]
        exact h.2.2 i e he
      · exact applyAction_history a true _
      · exact applyAction_cursor a true _
      · rw [applyAction_isPaused]
        exact hp
      · rw [applyAction_isComplete]
        exact hcm

theorem accurate_redo {b0 : Grid} {s : GameState} (h : Accurate b0 s)
    (hp : s.isPaused = false) (hcm : s.isComplete = false) :
    Accurate b0 (redo s) ∧ (redo s).history = s.history ∧
      (redo s).cursor =
        (if s.cursor < s.history.length then s.cursor + 1 else s.cursor) ∧
      (redo s).isPaused = false ∧ (redo s).isComplete = false := by
  unfold redo
  split
  · next hg =>
    rcases hg with h1 | h1 | h1
    · rw [if_neg (by omega)]
      exact ⟨h, rfl, rfl, hp, hcm⟩
    · rw [hp] at h1
      exact absurd h1 Bool.false_ne_true
    · rw [hcm] at h1
      exact absurd h1 Bool.false_ne_true
  · next hg =>
    have hlt : s.cursor < s.history.length := by
      rcases Nat.lt_or_ge s.cursor s.history.length with hx | hx
      · exact hx
      · exact absurd (Or.inl hx) hg
    cases hget : s.history[s.cursor]? with
    | none =>
      rw [List.getElem?_eq_getElem hlt] at hget
      exact absurd hget (by simp)
    | some a =>
      rw [List.getElem?_eq_getElem hlt, Option.some_inj] at hget
      have hsucc : s.history.take (s.cursor + 1) =
          s.history.take s.cursor ++ [a] := by
        rw [List.take_succ, List.getElem?_eq_getElem hlt, hget]
        simp
      refine ⟨⟨?_, ?_, ?_⟩, ?_, ?_, ?_, ?_⟩
      · rw [applyAction_cursor, applyAction_history]
        show s.cursor + 1 ≤ s.history.length
        omega
      · rw [applyAction_board_false, applyAction_history, applyAction_cursor]
        show fwdBoard a s.board = replayB b0 (s.history.take (s.cursor + 1))
        rw [hsucc, replayB_append, h.2.1]
      · intro i e he
        rw [applyAction_history] at he
        rw [applyAction_history]
        exact h.2.2 i e he
      · exact applyAction_history a false _
      · rw [if_pos hlt]
        exact applyAction_cursor a false _
      · rw [applyAction_isPaused]
        exact hp
      · rw [applyAction_isComplete]
        exact hcm

/-- Any undo/redo word keeps the state accurate and preserves the log and
the flags. -/
theorem accurate_applyUR (w : List URStep) {b0 : Grid} (s : GameState)
    (h : Accurate b0 s) (hp : s.isPaused = false) (hcm : s.isComplete = false) :
    Accurate b0 (applyUR w s) ∧ (applyUR w s).history = s.history ∧
      (applyUR w s).isPaused = false ∧ (applyUR w s).isComplete = false := by
  induction w generalizing s with
  | nil => exact ⟨h, rfl, hp, hcm⟩
  | cons m rest ih =>
    cases m with
    | u =>
      obtain ⟨h1, h2, _, h4, h5⟩ := accurate_undo h hp hcm
      obtain ⟨g1, g2, g3, g4⟩ := ih (undo s) h1 h4 h5
      exact ⟨g1, by rw [show applyUR (URStep.u :: rest) s = applyUR rest (undo s) from rfl,
        g2, h2], g3, g4⟩
    | r =>
      obtain ⟨h1, h2, _, h4, h5⟩ := accurate_redo h hp hcm
      obtain ⟨g1, g2, g3, g4⟩ := ih (redo s) h1 h4 h5
      exact ⟨g1, by rw [show applyUR (URStep.r :: rest) s = applyUR rest (redo s) from rfl,
        g2, h2], g3, g4⟩

/-- `n` undos retreat the cursor by `n` (clamped at the pre-history
position). -/
theorem undoN_cursor (n : Nat) {b0 : Grid} (s : GameState) (h : Accurate b0 s)
    (hp : s.isPaused = false) (hcm : s.isComplete = false) :
    (applyUR (List.replicate n URStep.u) s).cursor = s.cursor - n := by
  induction n generalizing s with
  | zero => simp [applyUR]
  | succ n ih =>
    rw [List.replicate_succ]
    obtain ⟨h1, _, h3, h4, h5⟩ := accurate_undo h hp hcm
    rw [show applyUR (URStep.u :: List.replicate n URStep.u) s =
      applyUR (List.replicate n URStep.u) (undo s) from rfl]
    rw [ih (undo s) h1 h4 h5, h3]
    omega

/-- `n` redos advance the cursor by `n` (clamped at the end of the log). -/
theorem redoN_cursor (n : Nat) {b0 : Grid} (s : GameState) (h : Accurate b0 s)
    (hp : s.isPaused = false) (hcm : s.isComplete = false) :
    (applyUR (List.replicate n URStep.r) s).cursor =
      min (s.cursor + n) s.history.length := by
  induction n generalizing s with
  | zero =>
    have := h.1
    simp only [List.replicate, applyUR, List.foldl_nil]
    omega
  | succ n ih =>
    rw [List.replicate_succ]
    obtain ⟨h1, h2, h3, h4, h5⟩ := accurate_redo h hp hcm
    rw [show applyUR (URStep.r :: List.replicate n URStep.r) s =
      applyUR (List.replicate n URStep.r) (redo s) from rfl]
    rw [ih (redo s) h1 h4 h5, h2, h3]
    split
    · next hlt => omega
    · next hge =>
      have hc := h.1
      have hceq : s.cursor = s.history.length := by omega
      omega

theorem applyUR_append (w1 w2 : List URStep) (s : GameState) :
    applyUR (w1 ++ w2) s = applyUR w2 (applyUR w1 s) := by
  unfold applyUR
  rw [List.foldl_append]

/-! ## C6: the undo/redo round trip (boards) -/

/-- From a state whose cursor sits at the end of the log, any undo/redo
word followed by `length` undos replays back to the base board, and
`length` further redos replay forward to the current board. -/
theorem roundtrip_core {b0 : Grid} (s : GameState) (h : Accurate b0 s)
    (hp : s.isPaused = false) (hcm : s.isComplete = false)
    (hL : s.cursor = s.history.length) (w : List URStep) :
    (applyUR (w ++ List.replicate s.history.length URStep.u) s).board = b0 ∧
    (applyUR (w ++ List.replicate s.history.length URStep.u ++
        List.replicate s.history.length URStep.r) s).board = s.board := by
  obtain ⟨ht, hth, htp, htc⟩ := accurate_applyUR w s h hp hcm
  have htcur : (applyUR w s).cursor ≤ s.history.length := by
    have h1 := ht.1
    rw [hth] at h1
    exact h1
  obtain ⟨hu, huh, hup, huc⟩ :=
    accurate_applyUR (List.replicate s.history.length URStep.u) (applyUR w s) ht htp htc
  have hucur :
      (applyUR (List.replicate s.history.length URStep.u) (applyUR w s)).cursor = 0 := by
    rw [undoN_cursor s.history.length (applyUR w s) ht htp htc]
    omega
  constructor
  · rw [applyUR_append]
    have hb := hu.2.1
    rw [hucur, List.take_zero] at hb
    exact hb
  · rw [applyUR_append, applyUR_append]
    obtain ⟨hv, hvh, _, _⟩ :=
      accurate_applyUR (List.replicate s.history.length URStep.r)
        (applyUR (List.replicate s.history.length URStep.u) (applyUR w s)) hu hup huc
    have hvcur :
        (applyUR (List.replicate s.history.length URStep.r)
          (applyUR (List.replicate s.history.length URStep.u) (applyUR w s))).cursor =
          s.history.length := by
      rw [redoN_cursor s.history.length
        (applyUR (List.replicate s.history.length URStep.u) (applyUR w s)) hu hup huc,
        hucur, huh, hth]
      omega
    have hb := hv.2.1
    rw [hvcur, hvh, huh, hth, List.take_length] at hb
    have hsb := h.2.1
    rw [hL, List.take_length] at hsb
    rw [hb]
    exact hsb.symm

/-- C6 (amended to the board): starting from a fresh-log state, after any
sequence of recorded edits, any interleaving of undo/redo followed by
`history.length` undos restores the pre-edit board cell for cell, and
`history.length` further redos restore the post-edit board. -/
theorem c6_board_roundtrip (s0 : GameState) (es : List EditOp) (w : List URStep)
    (hh : s0.history = []) (hc : s0.cursor = 0) (hp : s0.isPaused = false)
    (hcm : (applyEdits es s0).isComplete = false) :
    (applyUR (w ++ List.replicate (applyEdits es s0).history.length URStep.u)
        (applyEdits es s0)).board = s0.board ∧
    (applyUR (w ++ List.replicate (applyEdits es s0).history.length URStep.u ++
        List.replicate (applyEdits es s0).history.length URStep.r)
        (applyEdits es s0)).board = (applyEdits es s0).board := by
  have h0 : Accurate s0.board s0 := by
    refine ⟨?_, ?_, ?_⟩
    · rw [hh, hc]
      exact Nat.le_refl 0
    · rw [hc]
      rfl
    · intro i e he
      rw [hh] at he
      simp at he
  have h1 : Accurate s0.board (applyEdits es s0) := accurate_applyEdits es h0
  have hp1 : (applyEdits es s0).isPaused = false := by
    rw [applyEdits_isPaused, hp]
  have hL : (applyEdits es s0).cursor = (applyEdits es s0).history.length :=
    applyEdits_cursorLen es (by rw [hc, hh]; rfl)
  exact roundtrip_core (applyEdits es s0) h1 hp1 hcm hL w

def emptyNotes : NotesGrid := fun _ _ => ∅

/-- A started game: empty board, one pencil note (digit 3 at the top-left
cell), that cell selected, value mode. -/
def noteState : GameState :=
  { board := createEmptyGrid, solution := canonical, initial := createEmptyGrid,
    notes := setNotes emptyNotes 0 0 {3}, selected := some (0, 0),
    isNotesMode := false, isPaused := false, isComplete := false,
    hintsRemaining := 3, history := [], cursor := 0 }

/-- C6 counterexample: entering a value records one history entry and
silently clears the cell's pencil notes; the following undo restores the
board but not the notes, so the pre-edit Board/Notes state is not
restored cell by cell as claimed. -/
theorem c6_cex :
    (inputNumber 5 noteState).history.length = 1 ∧
    (undo (inputNumber 5 noteState)).board = noteState.board ∧
    (undo (inputNumber 5 noteState)).notes 0 0 ≠ noteState.notes 0 0 := by
  refine ⟨rfl, ?_, ?_⟩
  · decide
  · decide

theorem c6_witness :
    noteState.history = [] ∧ noteState.cursor = 0 ∧ noteState.isPaused = false ∧
    (applyEdits [EditOp.input 5] noteState).isComplete = false ∧
    ((applyUR ([] ++ List.replicate
          (applyEdits [EditOp.input 5] noteState).history.length URStep.u)
        (applyEdits [EditOp.input 5] noteState)).board = noteState.board ∧
     (applyUR ([] ++ List.replicate
          (applyEdits [EditOp.input 5] noteState).history.length URStep.u ++
        List.replicate (applyEdits [EditOp.input 5] noteState).history.length URStep.r)
        (applyEdits [EditOp.input 5] noteState)).board =
          (applyEdits [EditOp.input 5] noteState).board) :=
  ⟨rfl, rfl, rfl, by decide,
   c6_board_roundtrip noteState [EditOp.input 5] [] rfl rfl rfl (by decide)⟩
